import Mathlib

/-!
Shallow embedding of the connect-four game core (crates/game and
crates/players of the repository) and proofs about it.

Conventions used throughout:
* Machine integers (`usize`) are modelled as `Nat`; where the Rust code uses
  wrapping arithmetic (`wrapping_sub`/`wrapping_add`) we apply the explicit
  `% 2^64` semantics.
* Fallible code returns `Except`; a Rust `panic!` / out-of-bounds index is the
  `Except.error` branch.
* `&mut self` methods are embedded in state-passing style: they return the
  `Result` value together with the final state.
-/

namespace ConnectFour

/-- Team identifiers, X and O (`Team` in board.rs). -/
inductive Team : Type where
  | X : Team
  | O : Team
deriving DecidableEq, Repr

/-- Game result (`GameResult` in board.rs). -/
inductive GameResult : Type where
  | Draw : GameResult
  | Winner : Team → GameResult
deriving DecidableEq, Repr

/-- Game error (`Error` in error.rs, with the `FieldFullAtColumn(Team)`
payload used by all constructing and matching sites: board.rs, lib.rs and
connect-four/src/main.rs). -/
inductive Error : Type where
  | BuilderMissingField : String → Error
  | IndexOutOfBounds : Error
  | FieldFullAtColumn : Team → Error
deriving DecidableEq, Repr

instance {ε α : Type} [DecidableEq ε] [DecidableEq α] : DecidableEq (Except ε α) :=
  fun a b =>
  match a, b with
  | .error e, .error f =>
      if h : e = f then isTrue (by rw [h])
      else isFalse (by intro hh; cases hh; exact h rfl)
  | .error _, .ok _ => isFalse (by intro h; cases h)
  | .ok _, .error _ => isFalse (by intro h; cases h)
  | .ok x, .ok y =>
      if h : x = y then isTrue (by rw [h])
      else isFalse (by intro hh; cases hh; exact h rfl)

/-- Width of the connect four field (`W` in board.rs). -/
def W : Nat := 7

/-- Height of the connect four field (`H` in board.rs). -/
def H : Nat := 6

/-- The board: a `W*H` array of optional teams, addressed as
`field[x * H + y]` (board.rs `Board`). -/
def Board : Type := { l : List (Option Team) // l.length = W * H }

instance : DecidableEq Board := Subtype.instDecidableEq

/-- The raw field list of a board. -/
def Board.field (b : Board) : List (Option Team) := b.val

/-- In-bounds array access `self.field[i]`; every use for the full scans is
within bounds, so the default value is never relevant there. -/
def fget (b : Board) (i : Nat) : Option Team := b.field.getD i none

/-- `Board::default()`: the empty board. -/
def emptyBoard : Board :=
  ⟨List.replicate (W * H) none, List.length_replicate _ _⟩

/-- `Board::put_tile` in state-passing style: the returned pair is the
`Result<(), Error>` and the (possibly updated) board. The scan
`for y in 0..H` looking for the first empty cell of the column is the
`List.find?` over `List.range H`. -/
def put_tile (b : Board) (column : Nat) (team : Team) :
    Except Error Unit × Board :=
  if column ≥ W then (.error .IndexOutOfBounds, b)
  else
    match (List.range H).find? (fun y => (fget b (column * H + y)).isNone) with
    | some y =>
        (.ok (),
          ⟨b.field.set (column * H + y) (some team), by
            rw [List.length_set]; exact b.prop⟩)
    | none => (.error (.FieldFullAtColumn team), b)

/-- `Board::possible_moves`: the set of columns whose top cell is free.
The Rust code collects them into a `HashSet<usize>`; we represent the set by
the ascending list of its elements (the loop order `0..W`). -/
def possible_moves (b : Board) : List Nat :=
  (List.range W).filter (fun x => (fget b (x * H + H - 1)).isNone)

/-- The number of occupied cells,
`self.field.iter().filter(|t| t.is_some()).count()` in `whos_turn`. -/
def occupiedCount (b : Board) : Nat :=
  b.field.countP (fun t => t.isSome)

/-- `Board::whos_turn`: even number of tiles means X, odd means O. -/
def whos_turn (b : Board) : Team :=
  if occupiedCount b % 2 = 0 then Team.X else Team.O

/-- `Team::other`. -/
def Team.other : Team → Team
  | Team.X => Team.O
  | Team.O => Team.X

/-- The gravity invariant: in every column the occupied cells form a
contiguous run starting at row 0 — no cell is occupied while the cell
directly below it is empty. -/
def Gravity (b : Board) : Prop :=
  ∀ x < W, ∀ y < H - 1, (fget b (x * H + (y + 1))).isSome → (fget b (x * H + y)).isSome

instance (b : Board) : Decidable (Gravity b) := by
  unfold Gravity; infer_instance

/-- Boards reachable from the empty board by successful `put_tile` calls. -/
inductive Reachable : Board → Prop where
  | empty : Reachable emptyBoard
  | step {b : Board} {c : Nat} {t : Team} :
      Reachable b → (put_tile b c t).1 = .ok () → Reachable (put_tile b c t).2

/-! ### Generic list lemmas -/

/-- `find?` returns the first match: the list splits at the returned element
and everything before it fails the predicate. -/
theorem find?_first {α : Type} {p : α → Bool} :
    ∀ {l : List α} {a : α}, l.find? p = some a →
      ∃ l1 l2, l = l1 ++ a :: l2 ∧ (∀ x ∈ l1, p x = false) ∧ p a = true := by
  intro l
  induction l with
  | nil => intro a h; simp [List.find?] at h
  | cons x l ih =>
      intro a h
      rw [List.find?] at h
      by_cases hx : p x
      · rw [hx] at h
        simp only [Option.some.injEq] at h
        exact ⟨[], l, by simp [← h], by simp, by rw [← h]; exact hx⟩
      · rw [Bool.of_not_eq_true hx] at h
        obtain ⟨l1, l2, hl, h1, h2⟩ := ih h
        exact ⟨x :: l1, l2, by simp [hl], by
          intro z hz
          rcases List.mem_cons.mp hz with hz | hz
          · rw [hz]; exact Bool.of_not_eq_true hx
          · exact h1 z hz, h2⟩

/-- `find?` over `List.range n`: characterization of a successful search. -/
theorem find?_range_eq_some {p : Nat → Bool} {n y : Nat}
    (h : (List.range n).find? p = some y) :
    y < n ∧ p y = true ∧ ∀ z < y, p z = false := by
  obtain ⟨l1, l2, hl, h1, h2⟩ := find?_first h
  have hy : y ∈ List.range n := by rw [hl]; simp
  have hyn : y < n := List.mem_range.mp hy
  have hlen : l1.length < n := by
    have := congrArg List.length hl
    simp [List.length_range] at this
    omega
  have hl1 : l1 = List.range l1.length := by
    have : (List.range n).take l1.length = List.range (min l1.length n) :=
      List.take_range _ _
    rw [hl] at this
    simp [List.take_append, Nat.min_eq_left (Nat.le_of_lt hlen)] at this
    rw [← this]
  have hyval : y = l1.length := by
    have : (List.range n).getD l1.length 0 = y := by
      rw [hl]
      rw [List.getD_eq_getElem?_getD]
      rw [List.getElem?_append_right (le_refl _)]
      simp
    rw [List.getD_eq_getElem?_getD] at this
    rw [List.getElem?_range (by omega)] at this
    simpa using this.symm
  refine ⟨hyn, h2, ?_⟩
  intro z hz
  apply h1
  rw [hl1, List.mem_range]
  omega

/-- `find?` over `List.range n` succeeds when some element satisfies the
predicate. -/
theorem find?_range_isSome {p : Nat → Bool} {n y : Nat}
    (hy : y < n) (hp : p y = true) :
    ∃ z, (List.range n).find? p = some z := by
  cases hfind : (List.range n).find? p with
  | some z => exact ⟨z, rfl⟩
  | none =>
      exfalso
      have := List.find?_eq_none.mp hfind y (List.mem_range.mpr hy)
      exact this hp

/-- Updating one list entry changes `countP` by replacing the old entry's
contribution with the new one; specialized to old ∉ p, new ∈ p. -/
theorem countP_set_of_flip {α : Type} (p : α → Bool) :
    ∀ (l : List α) (i : Nat) (a : α), i < l.length →
      p (l.getD i a) = false → p a = true →
      (l.set i a).countP p = l.countP p + 1 := by
  intro l
  induction l with
  | nil => intro i a hi; simp at hi
  | cons x l ih =>
      intro i a hi hold hnew
      cases i with
      | zero =>
          simp only [List.getD_cons_zero] at hold
          simp [List.set, List.countP_cons, hold, hnew]
      | succ j =>
          simp only [List.getD_cons_succ] at hold
          simp only [List.length_cons] at hi
          simp only [List.set, List.countP_cons]
          rw [ih j a (by omega) hold hnew]
          omega

/-! ### `Board::game_result`: the full scan -/

/-- Body of `game_result`'s first loop nest: the vertical window starting at
`(x, y)` (`self.field[x * H + y .. x * H + y + 3]`). Returns the winning team
when the four cells agree. -/
def checkVert (b : Board) (x y : Nat) : Option Team :=
  match fget b (x * H + y) with
  | none => none
  | some team =>
      if fget b (x * H + y + 1) = some team ∧ fget b (x * H + y + 2) = some team ∧
          fget b (x * H + y + 3) = some team then some team else none

/-- Body of `game_result`'s second loop nest: the horizontal window starting
at `(x, y)`. -/
def checkHorz (b : Board) (x y : Nat) : Option Team :=
  match fget b (x * H + y) with
  | none => none
  | some team =>
      if fget b ((x + 1) * H + y) = some team ∧ fget b ((x + 2) * H + y) = some team ∧
          fget b ((x + 3) * H + y) = some team then some team else none

/-- Body of `game_result`'s third loop nest: the diagonally upwards window
starting at `(x, y)`. -/
def checkDiagUp (b : Board) (x y : Nat) : Option Team :=
  match fget b (x * H + y) with
  | none => none
  | some team =>
      if fget b ((x + 1) * H + y + 1) = some team ∧ fget b ((x + 2) * H + y + 2) = some team ∧
          fget b ((x + 3) * H + y + 3) = some team then some team else none

/-- Body of `game_result`'s fourth loop nest: the diagonally downwards window
starting at `(x, y)` (with `x` running over `3..W`). -/
def checkDiagDown (b : Board) (x y : Nat) : Option Team :=
  match fget b (x * H + y) with
  | none => none
  | some team =>
      if fget b ((x - 1) * H + y + 1) = some team ∧ fget b ((x - 2) * H + y + 2) = some team ∧
          fget b ((x - 3) * H + y + 3) = some team then some team else none

/-- `game_result`'s first loop nest: `for x in 0..W { for y in 0..H-3 }`
with early return. -/
def vertScan (b : Board) : Option Team :=
  (List.range W).findSome? fun x =>
    (List.range (H - 3)).findSome? fun y => checkVert b x y

/-- `game_result`'s second loop nest: `for y in 0..H { for x in 0..W-3 }`. -/
def horzScan (b : Board) : Option Team :=
  (List.range H).findSome? fun y =>
    (List.range (W - 3)).findSome? fun x => checkHorz b x y

/-- `game_result`'s third loop nest: `for x in 0..W-3 { for y in 0..H-3 }`. -/
def diagUpScan (b : Board) : Option Team :=
  (List.range (W - 3)).findSome? fun x =>
    (List.range (H - 3)).findSome? fun y => checkDiagUp b x y

/-- `game_result`'s fourth loop nest: `for x in 3..W { for y in 0..H-3 }`. -/
def diagDownScan (b : Board) : Option Team :=
  (List.range' 3 (W - 3)).findSome? fun x =>
    (List.range (H - 3)).findSome? fun y => checkDiagDown b x y

/-- The four win-scan loop nests of `game_result`, in source order, each with
its early return. -/
def winScan (b : Board) : Option Team :=
  (vertScan b).orElse fun _ =>
  (horzScan b).orElse fun _ =>
  (diagUpScan b).orElse fun _ =>
  diagDownScan b

/-- `Board::game_result`. -/
def game_result (b : Board) : Option GameResult :=
  match winScan b with
  | some team => some (GameResult.Winner team)
  | none =>
      if b.field.any (fun t => t.isNone) then none else some GameResult.Draw

/-! ### `Board::game_result_on_change`: the incremental check -/

/-- `Board::field_get_safe`: bounds-checked access treating out-of-bounds
coordinates as empty. -/
def field_get_safe (b : Board) (x y : Nat) : Option Team :=
  if x ≥ W ∨ y ≥ H then none else fget b (x * H + y)

/-- `usize` modulus (`2 ^ 64`). -/
def U64 : Nat := 18446744073709551616

/-- `usize::wrapping_sub` for a subtrahend `k ≤ 2^64`. -/
def wsub (a k : Nat) : Nat := (a + (U64 - k)) % U64

/-- `usize::wrapping_add`. -/
def wadd (a k : Nat) : Nat := (a + k) % U64

/-- The initial scan of `game_result_on_change` locating the topmost occupied
cell of the column: `for _ in 0..H { if self.field[x*H+y].is_some() { break }
else { y = y.wrapping_sub(1) } }`, with fuel `H` and the raw (panicking)
index modelled by the guarded `List` access. -/
def scanLoop (b : Board) (x : Nat) : Nat → Nat → Except Unit Nat
  | 0, y => .ok y
  | Nat.succ n, y =>
      match b.field[x * H + y]? with
      | none => .error ()
      | some cell => if cell.isSome then .ok y else scanLoop b x n (wsub y 1)

/-- The `x` direction condition of `game_result_on_change`: the four
horizontal windows through the anchor `(x, y)`. -/
def xDirWin (b : Board) (x y : Nat) (team : Team) : Prop :=
  (field_get_safe b (wsub x 3) y = some team ∧ field_get_safe b (wsub x 2) y = some team ∧
    field_get_safe b (wsub x 1) y = some team) ∨
  (field_get_safe b (wsub x 2) y = some team ∧ field_get_safe b (wsub x 1) y = some team ∧
    field_get_safe b (wadd x 1) y = some team) ∨
  (field_get_safe b (wsub x 1) y = some team ∧ field_get_safe b (wadd x 1) y = some team ∧
    field_get_safe b (wadd x 2) y = some team) ∨
  (field_get_safe b (wadd x 1) y = some team ∧ field_get_safe b (wadd x 2) y = some team ∧
    field_get_safe b (wadd x 3) y = some team)

/-- The `y` direction condition of `game_result_on_change`: only the downward
window, since the anchor is the topmost tile of its column. -/
def yDirWin (b : Board) (x y : Nat) (team : Team) : Prop :=
  field_get_safe b x (wsub y 3) = some team ∧ field_get_safe b x (wsub y 2) = some team ∧
    field_get_safe b x (wsub y 1) = some team

/-- The diagonal up condition of `game_result_on_change`. -/
def diagUpWin (b : Board) (x y : Nat) (team : Team) : Prop :=
  (field_get_safe b (wsub x 3) (wsub y 3) = some team ∧
    field_get_safe b (wsub x 2) (wsub y 2) = some team ∧
    field_get_safe b (wsub x 1) (wsub y 1) = some team) ∨
  (field_get_safe b (wsub x 2) (wsub y 2) = some team ∧
    field_get_safe b (wsub x 1) (wsub y 1) = some team ∧
    field_get_safe b (wadd x 1) (wadd y 1) = some team) ∨
  (field_get_safe b (wsub x 1) (wsub y 1) = some team ∧
    field_get_safe b (wadd x 1) (wadd y 1) = some team ∧
    field_get_safe b (wadd x 2) (wadd y 2) = some team) ∨
  (field_get_safe b (wadd x 1) (wadd y 1) = some team ∧
    field_get_safe b (wadd x 2) (wadd y 2) = some team ∧
    field_get_safe b (wadd x 3) (wadd y 3) = some team)

/-- The diagonal down condition of `game_result_on_change`. -/
def diagDownWin (b : Board) (x y : Nat) (team : Team) : Prop :=
  (field_get_safe b (wsub x 3) (wadd y 3) = some team ∧
    field_get_safe b (wsub x 2) (wadd y 2) = some team ∧
    field_get_safe b (wsub x 1) (wadd y 1) = some team) ∨
  (field_get_safe b (wsub x 2) (wadd y 2) = some team ∧
    field_get_safe b (wsub x 1) (wadd y 1) = some team ∧
    field_get_safe b (wadd x 1) (wsub y 1) = some team) ∨
  (field_get_safe b (wsub x 1) (wadd y 1) = some team ∧
    field_get_safe b (wadd x 1) (wsub y 1) = some team ∧
    field_get_safe b (wadd x 2) (wsub y 2) = some team) ∨
  (field_get_safe b (wadd x 1) (wsub y 1) = some team ∧
    field_get_safe b (wadd x 2) (wsub y 2) = some team ∧
    field_get_safe b (wadd x 3) (wsub y 3) = some team)

instance (b : Board) (x y : Nat) (team : Team) : Decidable (xDirWin b x y team) := by
  unfold xDirWin; infer_instance

instance (b : Board) (x y : Nat) (team : Team) : Decidable (yDirWin b x y team) := by
  unfold yDirWin; infer_instance

instance (b : Board) (x y : Nat) (team : Team) : Decidable (diagUpWin b x y team) := by
  unfold diagUpWin; infer_instance

instance (b : Board) (x y : Nat) (team : Team) : Decidable (diagDownWin b x y team) := by
  unfold diagDownWin; infer_instance

/-- `Board::game_result_on_change`. The `Except.error` value is the
out-of-bounds panic of the initial column scan. -/
def game_result_on_change (b : Board) (column : Nat) :
    Except Unit (Option GameResult) :=
  match scanLoop b column H (H - 1) with
  | .error e => .error e
  | .ok y =>
      match field_get_safe b column y with
      | none => .ok none
      | some team =>
          if xDirWin b column y team then .ok (some (GameResult.Winner team))
          else if yDirWin b column y team then .ok (some (GameResult.Winner team))
          else if diagUpWin b column y team then .ok (some (GameResult.Winner team))
          else if diagDownWin b column y team then .ok (some (GameResult.Winner team))
          else if b.field.any (fun t => t.isNone) then .ok none
          else .ok (some GameResult.Draw)

/-- Apply a list of moves to the empty board, keeping each successful
`put_tile` result (test harness helper, mirrors the unit tests of
board.rs). -/
def applyMoves (moves : List (Nat × Team)) : Board :=
  moves.foldl (fun b m => (put_tile b m.1 m.2).2) emptyBoard

/-- Sanity check mirroring the `state_check` unit test of board.rs:
horizontal, vertical and empty-board cases. -/
theorem sanity_state_check :
    game_result emptyBoard = none ∧
    game_result (applyMoves [(0, .X), (1, .X), (2, .X), (3, .X)]) =
      some (GameResult.Winner Team.X) ∧
    game_result (applyMoves [(3, .X), (3, .X), (3, .X), (3, .X)]) =
      some (GameResult.Winner Team.X) ∧
    game_result (applyMoves [(0, .X), (1, .O), (1, .X), (2, .O), (2, .O),
        (2, .X), (3, .O), (3, .O), (3, .O), (3, .X)]) =
      some (GameResult.Winner Team.X) ∧
    game_result (applyMoves [(3, .X), (2, .O), (2, .X), (1, .O), (1, .O),
        (1, .X), (0, .O), (0, .O), (0, .O), (0, .X)]) =
      some (GameResult.Winner Team.X) := by
  refine ⟨by decide, by decide, by decide, by decide, by decide⟩

/-- Sanity check mirroring the `state_check_on_change` unit test of
board.rs. -/
theorem sanity_state_check_on_change :
    game_result_on_change (applyMoves [(3, .X)]) 3 = .ok none ∧
    game_result_on_change (applyMoves [(3, .X)]) 0 = .ok none ∧
    game_result_on_change (applyMoves [(0, .X), (1, .X), (2, .X), (3, .X)]) 0 =
      .ok (some (GameResult.Winner Team.X)) ∧
    game_result_on_change (applyMoves [(0, .X), (1, .X), (2, .X), (3, .X)]) 2 =
      .ok (some (GameResult.Winner Team.X)) ∧
    game_result_on_change (applyMoves [(3, .X), (3, .X), (3, .X), (3, .X)]) 3 =
      .ok (some (GameResult.Winner Team.X)) ∧
    game_result_on_change (applyMoves [(0, .X), (1, .O), (1, .X), (2, .O),
        (2, .O), (2, .X), (3, .O), (3, .O), (3, .O), (3, .X)]) 1 =
      .ok (some (GameResult.Winner Team.X)) ∧
    game_result_on_change (applyMoves [(3, .X), (2, .O), (2, .X), (1, .O),
        (1, .O), (1, .X), (0, .O), (0, .O), (0, .O), (0, .X)]) 2 =
      .ok (some (GameResult.Winner Team.X)) := by
  refine ⟨by decide, by decide, by decide, by decide, by decide, by decide,
    by decide⟩

/-! ### Elementary lemmas about the embedding -/

theorem getD_set_eq {α : Type} :
    ∀ (l : List α) (i : Nat) (v d : α), i < l.length → (l.set i v).getD i d = v := by
  intro l
  induction l with
  | nil => intro i v d hi; simp at hi
  | cons x l ih =>
      intro i v d hi
      cases i with
      | zero => simp [List.set]
      | succ j =>
          simp only [List.length_cons] at hi
          simp only [List.set, List.getD_cons_succ]
          exact ih j v d (by omega)

theorem getD_set_ne {α : Type} :
    ∀ (l : List α) (i j : Nat) (v d : α), j ≠ i → (l.set i v).getD j d = l.getD j d := by
  intro l
  induction l with
  | nil => intro i j v d _; simp [List.set]
  | cons x l ih =>
      intro i j v d hne
      cases i with
      | zero =>
          cases j with
          | zero => exact absurd rfl hne
          | succ k => simp [List.set]
      | succ i' =>
          cases j with
          | zero => simp [List.set]
          | succ k =>
              simp only [List.set, List.getD_cons_succ]
              exact ih i' k v d (by omega)

/-- The board length is always `W * H`. -/
theorem field_length (b : Board) : b.field.length = W * H := b.prop

/-- The flat index encoding is injective on in-range coordinates. -/
theorem index_inj {x y x' y' : Nat} (hy : y < H) (hy' : y' < H)
    (h : x * H + y = x' * H + y') : x = x' ∧ y = y' := by
  simp only [H] at hy hy' h
  omega

theorem wsub_of_le {a k : Nat} (ha : a < U64) (hk : k ≤ a) : wsub a k = a - k := by
  simp only [wsub, U64] at *
  omega

theorem wsub_big {a k : Nat} (ha : a < W) (hk1 : 0 < k) (hk : k ≤ 5) (hak : a < k) :
    W ≤ wsub a k := by
  simp only [wsub, U64, W] at *
  omega

theorem wadd_of_lt {a k : Nat} (h : a + k < U64) : wadd a k = a + k := by
  simp only [wadd, U64] at *
  omega

/-- `field_get_safe` returns a tile exactly when the coordinates are in range
and the raw cell holds it. -/
theorem fgs_eq_some_iff {b : Board} {x y : Nat} {v : Team} :
    field_get_safe b x y = some v ↔ x < W ∧ y < H ∧ fget b (x * H + y) = some v := by
  unfold field_get_safe
  split
  · rename_i h
    constructor
    · intro hh; cases hh
    · rintro ⟨h1, h2, _⟩
      rcases h with h | h
      · omega
      · omega
  · rename_i h
    push_neg at h
    constructor
    · intro hh; exact ⟨by omega, by omega, hh⟩
    · rintro ⟨_, _, hh⟩; exact hh

/-! ### `put_tile` lemmas -/


/-- `put_tile` equation: out-of-range column. -/
theorem put_tile_eq_iob {b : Board} {c : Nat} {t : Team} (hc : W ≤ c) :
    put_tile b c t = (.error .IndexOutOfBounds, b) := by
  unfold put_tile
  rw [if_pos hc]

/-- `put_tile` equation: successful insertion at the first empty cell. -/
theorem put_tile_eq_ok {b : Board} {c : Nat} {t : Team} {y0 : Nat} (hc : ¬ W ≤ c)
    (hfind : (List.range H).find? (fun y => (fget b (c * H + y)).isNone) = some y0) :
    put_tile b c t =
      (.ok (), ⟨b.field.set (c * H + y0) (some t), by
        rw [List.length_set]; exact b.prop⟩) := by
  unfold put_tile
  rw [if_neg hc, hfind]

/-- `put_tile` equation: full column. -/
theorem put_tile_eq_full {b : Board} {c : Nat} {t : Team} (hc : ¬ W ≤ c)
    (hfind : (List.range H).find? (fun y => (fget b (c * H + y)).isNone) = none) :
    put_tile b c t = (.error (.FieldFullAtColumn t), b) := by
  unfold put_tile
  rw [if_neg hc, hfind]

/-- Characterization of a successful `put_tile`: the column is in range, the
written cell is the lowest empty cell of the column, and the new field is a
single-cell update. -/
theorem put_tile_ok_elim {b : Board} {c : Nat} {t : Team}
    (h : (put_tile b c t).1 = .ok ()) :
    c < W ∧ ∃ y0, y0 < H ∧ fget b (c * H + y0) = none ∧
      (∀ y < y0, fget b (c * H + y) ≠ none) ∧
      (put_tile b c t).2.field = b.field.set (c * H + y0) (some t) := by
  by_cases hc : W ≤ c
  · rw [put_tile_eq_iob hc] at h
    cases h
  · cases hfind : (List.range H).find? (fun y => (fget b (c * H + y)).isNone) with
    | none =>
        rw [put_tile_eq_full hc hfind] at h
        cases h
    | some y0 =>
        obtain ⟨hy0, hp, hfirst⟩ := find?_range_eq_some hfind
        refine ⟨by omega, y0, hy0, Option.isNone_iff_eq_none.mp hp, ?_, ?_⟩
        · intro y hy hcon
          have := hfirst y hy
          simp [hcon] at this
        · rw [put_tile_eq_ok hc hfind]
          rfl

/-- `put_tile` succeeds when the column is in range and has an empty cell. -/
theorem put_tile_ok_of {b : Board} {c : Nat} (t : Team) (hc : c < W)
    (hy : ∃ y, y < H ∧ fget b (c * H + y) = none) :
    (put_tile b c t).1 = .ok () := by
  obtain ⟨y, hyH, hempty⟩ := hy
  obtain ⟨z, hz⟩ := find?_range_isSome (p := fun y => (fget b (c * H + y)).isNone)
    hyH (by simp [hempty])
  rw [put_tile_eq_ok (by omega) hz]

/-- `put_tile` fails with `IndexOutOfBounds` exactly on out-of-range
columns. -/
theorem put_tile_err_iob {b : Board} {c : Nat} {t : Team} :
    (put_tile b c t).1 = .error .IndexOutOfBounds ↔ W ≤ c := by
  constructor
  · intro h
    by_contra hc
    cases hfind : (List.range H).find? (fun y => (fget b (c * H + y)).isNone) with
    | none => rw [put_tile_eq_full hc hfind] at h; cases h
    | some y0 => rw [put_tile_eq_ok hc hfind] at h; cases h
  · intro hc
    rw [put_tile_eq_iob hc]

/-- `put_tile` fails with `FieldFullAtColumn` (attributing the acting team)
exactly when the column is in range and every cell of it is occupied. -/
theorem put_tile_err_full {b : Board} {c : Nat} {t t' : Team} :
    (put_tile b c t).1 = .error (.FieldFullAtColumn t') ↔
      t' = t ∧ c < W ∧ ∀ y < H, fget b (c * H + y) ≠ none := by
  by_cases hc : W ≤ c
  · rw [put_tile_eq_iob hc]
    constructor
    · intro h; cases h
    · rintro ⟨_, hlt, _⟩; omega
  · cases hfind : (List.range H).find? (fun y => (fget b (c * H + y)).isNone) with
    | none =>
        rw [put_tile_eq_full hc hfind]
        have hall := List.find?_eq_none.mp hfind
        constructor
        · intro h
          cases h
          refine ⟨rfl, by omega, ?_⟩
          intro y hy hcon
          exact hall y (List.mem_range.mpr hy) (by simp [hcon])
        · rintro ⟨ht, _, _⟩
          rw [ht]
    | some y0 =>
        rw [put_tile_eq_ok hc hfind]
        obtain ⟨hy0, hp, _⟩ := find?_range_eq_some hfind
        constructor
        · intro h; cases h
        · rintro ⟨_, _, hall⟩
          exact absurd (Option.isNone_iff_eq_none.mp hp) (hall y0 hy0)

/-- On failure the board is returned unchanged. -/
theorem put_tile_err_frame {b : Board} {c : Nat} {t : Team} {e : Error}
    (h : (put_tile b c t).1 = .error e) : (put_tile b c t).2 = b := by
  by_cases hc : W ≤ c
  · rw [put_tile_eq_iob hc]
  · cases hfind : (List.range H).find? (fun y => (fget b (c * H + y)).isNone) with
    | none => rw [put_tile_eq_full hc hfind]
    | some y0 =>
        rw [put_tile_eq_ok hc hfind] at h
        cases h

/-- The result of `put_tile` is `ok`, `IndexOutOfBounds` or
`FieldFullAtColumn` with the acting team as payload. -/
theorem put_tile_res_cases (b : Board) (c : Nat) (t : Team) :
    (put_tile b c t).1 = .ok () ∨ (put_tile b c t).1 = .error .IndexOutOfBounds ∨
      (put_tile b c t).1 = .error (.FieldFullAtColumn t) := by
  by_cases hc : W ≤ c
  · rw [put_tile_eq_iob hc]
    right; left; rfl
  · cases hfind : (List.range H).find? (fun y => (fget b (c * H + y)).isNone) with
    | none =>
        rw [put_tile_eq_full hc hfind]
        right; right; rfl
    | some y0 =>
        rw [put_tile_eq_ok hc hfind]
        left; rfl

/-- The written cell of a successful `put_tile`. -/
theorem fget_update_self {b b' : Board} {i : Nat} {v : Option Team}
    (h : b'.field = b.field.set i v) (hi : i < W * H) : fget b' i = v := by
  unfold fget
  rw [h]
  exact getD_set_eq _ _ _ _ (by rw [field_length]; exact hi)

/-- The untouched cells of a successful `put_tile`. -/
theorem fget_update_other {b b' : Board} {i j : Nat} {v : Option Team}
    (h : b'.field = b.field.set i v) (hj : j ≠ i) : fget b' j = fget b j := by
  unfold fget
  rw [h]
  exact getD_set_ne _ _ _ _ _ hj

/-- In-range coordinates give an in-range flat index. -/
theorem idx_lt {x y : Nat} (hx : x < W) (hy : y < H) : x * H + y < W * H := by
  simp only [W, H] at *
  omega

/-- `getD` does not depend on the default inside the list. -/
theorem getD_default_irrel {α : Type} :
    ∀ (l : List α) (i : Nat), i < l.length → ∀ (d d' : α), l.getD i d = l.getD i d' := by
  intro l
  induction l with
  | nil => intro i hi; simp at hi
  | cons x l ih =>
      intro i hi d d'
      cases i with
      | zero => simp
      | succ j =>
          simp only [List.getD_cons_succ]
          exact ih j (by simpa using Nat.lt_of_succ_lt_succ hi) d d'

/-! ### Gravity lemmas -/

/-- A successful `put_tile` preserves the gravity invariant. -/
theorem gravity_put_tile {b : Board} {c : Nat} {t : Team} (hg : Gravity b)
    (h : (put_tile b c t).1 = .ok ()) : Gravity (put_tile b c t).2 := by
  obtain ⟨hc, y0, hy0, hempty, hbelow, hfield⟩ := put_tile_ok_elim h
  intro x hx y hy hsome
  have hyH : y < H := by simp only [H] at *; omega
  have hy1H : y + 1 < H := by simp only [H] at *; omega
  by_cases hxc : x = c
  · subst hxc
    by_cases hyy : y = y0
    · subst hyy
      have := fget_update_self hfield (idx_lt hx hyH)
      simp [this]
    · by_cases hyy1 : y + 1 = y0
      · have hlow := hbelow y (by omega)
        have hne : x * H + y ≠ x * H + y0 := by
          intro heq
          exact hyy (index_inj hyH hy0 heq).2
        rw [fget_update_other hfield hne]
        exact Option.ne_none_iff_isSome.mp hlow
      · have hne1 : x * H + (y + 1) ≠ x * H + y0 := by
          intro heq
          exact hyy1 (index_inj hy1H hy0 heq).2
        have hne : x * H + y ≠ x * H + y0 := by
          intro heq
          exact hyy (index_inj hyH hy0 heq).2
        rw [fget_update_other hfield hne1] at hsome
        rw [fget_update_other hfield hne]
        exact hg x hx y hy hsome
  · have hne1 : x * H + (y + 1) ≠ c * H + y0 := by
      intro heq
      exact hxc (index_inj hy1H hy0 heq).1
    have hne : x * H + y ≠ c * H + y0 := by
      intro heq
      exact hxc (index_inj hyH hy0 heq).1
    rw [fget_update_other hfield hne1] at hsome
    rw [fget_update_other hfield hne]
    exact hg x hx y hy hsome

/-- Every reachable board satisfies the gravity invariant. -/
theorem gravity_of_reachable {b : Board} (h : Reachable b) : Gravity b := by
  induction h with
  | empty => decide
  | step _ hok ih => exact gravity_put_tile ih hok

/-- Under gravity, every cell of a column above an empty cell is empty. -/
theorem gravity_above_empty {b : Board} (hg : Gravity b) {c y0 : Nat}
    (hc : c < W) (hempty : fget b (c * H + y0) = none) :
    ∀ y, y0 ≤ y → y < H → fget b (c * H + y) = none := by
  intro y hy hyH
  induction y, hy using Nat.le_induction with
  | base => exact hempty
  | succ n hn ih =>
      have hnone : fget b (c * H + n) = none := ih (by omega)
      by_contra hcon
      have hs := Option.ne_none_iff_isSome.mp hcon
      have := hg c hc n (by simp only [H] at *; omega) hs
      simp [hnone] at this

/-- Under gravity, an occupied top cell means the whole column is full. -/
theorem gravity_top_full {b : Board} (hg : Gravity b) {c : Nat} (hc : c < W)
    (htop : fget b (c * H + (H - 1)) ≠ none) :
    ∀ y < H, fget b (c * H + y) ≠ none := by
  intro y hy hcon
  exact htop (gravity_above_empty hg hc hcon (H - 1) (by omega) (by omega))

/-! ### `scanLoop` lemmas -/

/-- One unfolding of the column scan. -/
theorem scanLoop_succ (b : Board) (x n y : Nat) :
    scanLoop b x (n + 1) y =
      match b.field[x * H + y]? with
      | none => .error ()
      | some cell => if cell.isSome then .ok y else scanLoop b x n (wsub y 1) := rfl

/-- In-range cells are present in the raw field list. -/
theorem getElem?_field {b : Board} {i : Nat} (hi : i < W * H) :
    b.field[i]? = some (fget b i) := by
  have hlen : i < b.field.length := by rw [field_length]; exact hi
  rw [List.getElem?_eq_getElem hlen]
  unfold fget
  rw [List.getD_eq_getElem _ _ hlen]

/-- One unfolding of the column scan with an in-range index. -/
theorem scanLoop_succ_in {b : Board} {x y : Nat} (n : Nat) (h : x * H + y < W * H) :
    scanLoop b x (n + 1) y =
      if (fget b (x * H + y)).isSome then .ok y else scanLoop b x n (wsub y 1) := by
  rw [scanLoop_succ, getElem?_field h]

/-- The column scan of `game_result_on_change` cannot hit the panicking
branch while the column index is in range and the fuel does not outlast the
row counter. -/
theorem scanLoop_ok {b : Board} {x : Nat} (hx : x < W) :
    ∀ (fuel y : Nat), y < H → fuel ≤ y + 1 → ∃ r, scanLoop b x fuel y = .ok r := by
  intro fuel
  induction fuel with
  | zero => intro y _ _; exact ⟨y, rfl⟩
  | succ n ih =>
      intro y hy hfuel
      rw [scanLoop_succ_in n (idx_lt hx hy)]
      cases hsome : (fget b (x * H + y)).isSome with
      | true => exact ⟨y, by rw [if_pos rfl]⟩
      | false =>
          rw [if_neg (by simp)]
          cases hy0 : y with
          | zero =>
              have hn : n = 0 := by omega
              subst hn
              exact ⟨wsub 0 1, rfl⟩
          | succ m =>
              subst hy0
              have hws : wsub (m + 1) 1 = m := by
                rw [wsub_of_le (by simp only [U64, H] at *; omega) (by omega)]
                omega
              rw [hws]
              exact ih m (by omega) (by omega)

/-- The column scan finds the topmost occupied cell: if every cell strictly
between `y0` and the starting row is empty and `y0` is occupied, the scan
stops at `y0`. -/
theorem scanLoop_finds {b : Board} {x : Nat} (hx : x < W) :
    ∀ (fuel ytop y0 : Nat), ytop < H → y0 ≤ ytop → ytop - y0 < fuel →
      (∀ y', y0 < y' → y' ≤ ytop → fget b (x * H + y') = none) →
      (fget b (x * H + y0)).isSome →
      scanLoop b x fuel ytop = .ok y0 := by
  intro fuel
  induction fuel with
  | zero => intro ytop y0 _ _ hlt _ _; omega
  | succ n ih =>
      intro ytop y0 hytop hle hlt habove hsome
      rw [scanLoop_succ_in n (idx_lt hx hytop)]
      by_cases heq : ytop = y0
      · subst heq
        rw [if_pos hsome]
      · have hempty : fget b (x * H + ytop) = none := habove ytop (by omega) (le_refl _)
        have hws : wsub ytop 1 = ytop - 1 := by
          rw [wsub_of_le (by simp only [U64, H] at *; omega) (by omega)]
        rw [if_neg (by simp [hempty]), hws]
        exact ih (ytop - 1) y0 (by omega) (by omega) (by omega)
          (fun y' h1 h2 => habove y' h1 (by omega)) hsome

/-! ### Occupied-cell counting -/

/-- A successful `put_tile` increases the occupied-cell count by one. -/
theorem occupiedCount_put {b : Board} {c : Nat} {t : Team}
    (h : (put_tile b c t).1 = .ok ()) :
    occupiedCount (put_tile b c t).2 = occupiedCount b + 1 := by
  obtain ⟨hc, y0, hy0, hempty, _, hfield⟩ := put_tile_ok_elim h
  have hlen : c * H + y0 < b.field.length := by
    rw [field_length]; exact idx_lt hc hy0
  unfold occupiedCount
  rw [hfield]
  apply countP_set_of_flip _ _ _ _ hlen _ rfl
  rw [getD_default_irrel _ _ hlen (some t) none]
  have : b.field.getD (c * H + y0) none = none := hempty
  rw [this]
  rfl

/-- A successful `put_tile` flips whose turn it is. -/
theorem whos_turn_flip {b : Board} {c : Nat} {t : Team}
    (h : (put_tile b c t).1 = .ok ()) :
    whos_turn (put_tile b c t).2 = (whos_turn b).other := by
  have hcount := occupiedCount_put h
  unfold whos_turn
  rw [hcount]
  by_cases hpar : occupiedCount b % 2 = 0
  · rw [if_pos hpar, if_neg (by omega)]
    rfl
  · rw [if_neg hpar, if_pos (by omega)]
    rfl

/-! ### Claim theorems: `put_tile`, invariants, turn parity, panics -/

/-- C2: for every board, column in `[0, width)` and team, if the column is
not full then `put_tile` succeeds, writes the team into the lowest
unoccupied row of that column (every row below it is occupied), and leaves
every other cell unchanged (exactly one cell goes from empty to occupied);
on any failure the board is unchanged. -/
theorem C2_put_tile_success_frame :
    (∀ (b : Board) (c : Nat) (t : Team), c < W →
      (∃ y, y < H ∧ fget b (c * H + y) = none) →
      ∃ y0, y0 < H ∧ fget b (c * H + y0) = none ∧
        (∀ y < y0, fget b (c * H + y) ≠ none) ∧
        (put_tile b c t).1 = .ok () ∧
        fget (put_tile b c t).2 (c * H + y0) = some t ∧
        (∀ i, i ≠ c * H + y0 → fget (put_tile b c t).2 i = fget b i)) ∧
    (∀ (b : Board) (c : Nat) (t : Team) (e : Error),
      (put_tile b c t).1 = .error e → (put_tile b c t).2 = b) := by
  constructor
  · intro b c t hc hex
    have hok := put_tile_ok_of t hc hex
    obtain ⟨_, y0, hy0, hempty, hbelow, hfield⟩ := put_tile_ok_elim hok
    exact ⟨y0, hy0, hempty, hbelow, hok,
      fget_update_self hfield (idx_lt hc hy0),
      fun i hi => fget_update_other hfield hi⟩
  · intro b c t e he
    exact put_tile_err_frame he

/-- Witness for C2 at the empty board, column 3. -/
theorem C2_witness :
    (∃ y0, y0 < H ∧ fget emptyBoard (3 * H + y0) = none ∧
      (∀ y < y0, fget emptyBoard (3 * H + y) ≠ none) ∧
      (put_tile emptyBoard 3 Team.X).1 = .ok () ∧
      fget (put_tile emptyBoard 3 Team.X).2 (3 * H + y0) = some Team.X ∧
      (∀ i, i ≠ 3 * H + y0 →
        fget (put_tile emptyBoard 3 Team.X).2 i = fget emptyBoard i)) :=
  C2_put_tile_success_frame.1 emptyBoard 3 Team.X (by decide)
    ⟨0, by decide, by decide⟩

/-- C3: on a board satisfying the gravity invariant (which all boards
constructible through the API do, see C4), `put_tile` fails with
`IndexOutOfBounds` iff the column is out of range, fails with
`FieldFullAtColumn` carrying the acting team iff the column is in range and
its topmost row is occupied, and in both failure cases the board is left
unchanged. -/
theorem C3_put_tile_errors (b : Board) (c : Nat) (t : Team) (hg : Gravity b) :
    ((put_tile b c t).1 = .error .IndexOutOfBounds ↔ W ≤ c) ∧
    ((put_tile b c t).1 = .error (.FieldFullAtColumn t) ↔
      c < W ∧ fget b (c * H + (H - 1)) ≠ none) ∧
    (∀ e, (put_tile b c t).1 = .error e → (put_tile b c t).2 = b) := by
  refine ⟨put_tile_err_iob, ?_, fun e he => put_tile_err_frame he⟩
  rw [put_tile_err_full]
  constructor
  · rintro ⟨_, hc, hall⟩
    exact ⟨hc, hall (H - 1) (by simp only [H]; omega)⟩
  · rintro ⟨hc, htop⟩
    exact ⟨rfl, hc, gravity_top_full hg hc htop⟩

/-- Witness for C3: a board with a full column 0. -/
theorem C3_witness :
    ((put_tile (applyMoves [(0, .X), (0, .O), (0, .X), (0, .O), (0, .X),
        (0, .O)]) 0 Team.X).1 = .error .IndexOutOfBounds ↔ W ≤ 0) ∧
    ((put_tile (applyMoves [(0, .X), (0, .O), (0, .X), (0, .O), (0, .X),
        (0, .O)]) 0 Team.X).1 = .error (.FieldFullAtColumn Team.X) ↔
      0 < W ∧ fget (applyMoves [(0, .X), (0, .O), (0, .X), (0, .O), (0, .X),
        (0, .O)]) (0 * H + (H - 1)) ≠ none) ∧
    (∀ e, (put_tile (applyMoves [(0, .X), (0, .O), (0, .X), (0, .O), (0, .X),
        (0, .O)]) 0 Team.X).1 = .error e →
      (put_tile (applyMoves [(0, .X), (0, .O), (0, .X), (0, .O), (0, .X),
        (0, .O)]) 0 Team.X).2 = applyMoves [(0, .X), (0, .O), (0, .X),
        (0, .O), (0, .X), (0, .O)]) :=
  C3_put_tile_errors _ 0 Team.X (by decide)

/-- C4: every board reachable from the empty board by successful `put_tile`
calls satisfies the gravity invariant, and the invariant is preserved by
every successful `put_tile`. -/
theorem C4_gravity_invariant :
    (∀ b, Reachable b → Gravity b) ∧
    (∀ (b : Board) (c : Nat) (t : Team), Gravity b →
      (put_tile b c t).1 = .ok () → Gravity (put_tile b c t).2) :=
  ⟨fun _ h => gravity_of_reachable h, fun _ _ _ hg hok => gravity_put_tile hg hok⟩

/-- Witness for C4 on a concrete reachable board. -/
theorem C4_witness :
    Gravity emptyBoard ∧ Gravity (put_tile emptyBoard 3 Team.X).2 :=
  ⟨C4_gravity_invariant.1 emptyBoard Reachable.empty,
   C4_gravity_invariant.2 emptyBoard 3 Team.X (by decide) (by decide)⟩

/-- C8: `whos_turn` returns X iff the number of occupied cells is even and O
iff it is odd; a successful `put_tile` always flips the turn, so starting
from the empty board the turns alternate X, O, X, O, ... -/
theorem C8_whos_turn_parity (b : Board) :
    (whos_turn b = Team.X ↔ Even (occupiedCount b)) ∧
    (whos_turn b = Team.O ↔ Odd (occupiedCount b)) ∧
    (∀ (c : Nat) (t : Team), (put_tile b c t).1 = .ok () →
      whos_turn (put_tile b c t).2 = (whos_turn b).other) := by
  refine ⟨?_, ?_, fun c t h => whos_turn_flip h⟩
  · unfold whos_turn
    rw [Nat.even_iff]
    by_cases hpar : occupiedCount b % 2 = 0
    · rw [if_pos hpar]
      simp [hpar]
    · rw [if_neg hpar]
      constructor
      · intro h; cases h
      · intro h; exact absurd h hpar
  · unfold whos_turn
    rw [Nat.odd_iff]
    by_cases hpar : occupiedCount b % 2 = 0
    · rw [if_pos hpar]
      constructor
      · intro h; cases h
      · intro h; omega
    · rw [if_neg hpar]
      have h1 : occupiedCount b % 2 = 1 := by omega
      simp [h1]

/-- Witness for C8 at the empty board. -/
theorem C8_witness :
    (whos_turn emptyBoard = Team.X ↔ Even (occupiedCount emptyBoard)) ∧
    whos_turn (put_tile emptyBoard 0 Team.X).2 = (whos_turn emptyBoard).other :=
  ⟨(C8_whos_turn_parity emptyBoard).1,
   (C8_whos_turn_parity emptyBoard).2.2 0 Team.X (by decide)⟩

/-- Reduction of `game_result_on_change` once the column scan has
succeeded. -/
theorem on_change_eq_of_scan {b : Board} {column y : Nat}
    (h : scanLoop b column H (H - 1) = .ok y) :
    game_result_on_change b column =
      match field_get_safe b column y with
      | none => .ok none
      | some team =>
          if xDirWin b column y team then .ok (some (GameResult.Winner team))
          else if yDirWin b column y team then .ok (some (GameResult.Winner team))
          else if diagUpWin b column y team then .ok (some (GameResult.Winner team))
          else if diagDownWin b column y team then .ok (some (GameResult.Winner team))
          else if b.field.any (fun t => t.isNone) then .ok none
          else .ok (some GameResult.Draw) := by
  unfold game_result_on_change
  rw [h]

/-- C10: `game_result_on_change` panics (hits the out-of-bounds index in the
initial column scan) for every column `≥ W` and on every board, and never
panics for columns `< W`; so `column < W` is exactly the caller's
precondition for totality. -/
theorem C10_on_change_partiality (b : Board) (column : Nat) :
    (W ≤ column → game_result_on_change b column = .error ()) ∧
    (column < W → ∃ r, game_result_on_change b column = .ok r) := by
  constructor
  · intro hcol
    have h5 : b.field[column * H + (H - 1)]? = none := by
      rw [List.getElem?_eq_none]
      rw [field_length]
      simp only [W, H] at *
      omega
    have hscan : scanLoop b column H (H - 1) = .error () := by
      have hconv : scanLoop b column H (H - 1) = scanLoop b column (5 + 1) (H - 1) :=
        rfl
      rw [hconv, scanLoop_succ, h5]
    unfold game_result_on_change
    rw [hscan]
  · intro hcol
    obtain ⟨r, hr⟩ := scanLoop_ok hcol H (H - 1) (by simp only [H]; omega)
      (by simp only [H]; omega)
    rw [on_change_eq_of_scan hr]
    split
    · exact ⟨none, rfl⟩
    · split
      · exact ⟨_, rfl⟩
      · split
        · exact ⟨_, rfl⟩
        · split
          · exact ⟨_, rfl⟩
          · split
            · exact ⟨_, rfl⟩
            · split
              · exact ⟨none, rfl⟩
              · exact ⟨_, rfl⟩

/-- Witness for C10 at the empty board: column 7 panics, column 6 does
not. -/
theorem C10_witness :
    game_result_on_change emptyBoard 7 = .error () ∧
    ∃ r, game_result_on_change emptyBoard 6 = .ok r :=
  ⟨(C10_on_change_partiality emptyBoard 7).1 (by decide),
   (C10_on_change_partiality emptyBoard 6).2 (by decide)⟩

/-! ### Win lines: the existential reading of the four scans -/

/-- A vertical four-in-a-row of team `t` whose lowest cell is `(x, y)` — the
cells inspected by `checkVert`. -/
def vertLine (b : Board) (x y : Nat) (t : Team) : Prop :=
  fget b (x * H + y) = some t ∧ fget b (x * H + y + 1) = some t ∧
    fget b (x * H + y + 2) = some t ∧ fget b (x * H + y + 3) = some t

/-- A horizontal four-in-a-row of team `t` whose leftmost cell is `(x, y)`. -/
def horzLine (b : Board) (x y : Nat) (t : Team) : Prop :=
  fget b (x * H + y) = some t ∧ fget b ((x + 1) * H + y) = some t ∧
    fget b ((x + 2) * H + y) = some t ∧ fget b ((x + 3) * H + y) = some t

/-- An ascending diagonal four-in-a-row of team `t` starting at `(x, y)`. -/
def diagUpLine (b : Board) (x y : Nat) (t : Team) : Prop :=
  fget b (x * H + y) = some t ∧ fget b ((x + 1) * H + y + 1) = some t ∧
    fget b ((x + 2) * H + y + 2) = some t ∧ fget b ((x + 3) * H + y + 3) = some t

/-- A descending diagonal four-in-a-row of team `t` starting at its top-right
cell `(x, y)` (the shape inspected by `checkDiagDown`). -/
def diagDownLine (b : Board) (x y : Nat) (t : Team) : Prop :=
  fget b (x * H + y) = some t ∧ fget b ((x - 1) * H + y + 1) = some t ∧
    fget b ((x - 2) * H + y + 2) = some t ∧ fget b ((x - 3) * H + y + 3) = some t

/-- Some vertical win of `t` exists in the window region scanned by
`game_result`. -/
def hasVert (b : Board) (t : Team) : Prop :=
  ∃ x y, x < W ∧ y < H - 3 ∧ vertLine b x y t

/-- Some horizontal win of `t` exists. -/
def hasHorz (b : Board) (t : Team) : Prop :=
  ∃ x y, x < W - 3 ∧ y < H ∧ horzLine b x y t

/-- Some ascending diagonal win of `t` exists. -/
def hasDiagUp (b : Board) (t : Team) : Prop :=
  ∃ x y, x < W - 3 ∧ y < H - 3 ∧ diagUpLine b x y t

/-- Some descending diagonal win of `t` exists. -/
def hasDiagDown (b : Board) (t : Team) : Prop :=
  ∃ x y, 3 ≤ x ∧ x < W ∧ y < H - 3 ∧ diagDownLine b x y t

/-- Some four-in-a-row of `t` exists. -/
def HasWin (b : Board) (t : Team) : Prop :=
  hasVert b t ∨ hasHorz b t ∨ hasDiagUp b t ∨ hasDiagDown b t

theorem checkVert_some_red {b : Board} {x y : Nat} {u : Team}
    (h : fget b (x * H + y) = some u) :
    checkVert b x y =
      if fget b (x * H + y + 1) = some u ∧ fget b (x * H + y + 2) = some u ∧ fget b (x * H + y + 3) = some u then some u else none := by
  unfold checkVert
  rw [h]

theorem checkVert_none_red {b : Board} {x y : Nat}
    (h : fget b (x * H + y) = none) : checkVert b x y = none := by
  unfold checkVert
  rw [h]

theorem checkVert_eq_some {b : Board} {x y : Nat} {t : Team} :
    checkVert b x y = some t ↔ vertLine b x y t := by
  unfold vertLine
  cases h : fget b (x * H + y) with
  | none =>
      rw [checkVert_none_red h]
      simp [h]
  | some u =>
      rw [checkVert_some_red h]
      by_cases hcond : fget b (x * H + y + 1) = some u ∧ fget b (x * H + y + 2) = some u ∧ fget b (x * H + y + 3) = some u
      · rw [if_pos hcond]
        constructor
        · intro heq
          injection heq with h5
          subst h5
          exact ⟨rfl, hcond.1, hcond.2.1, hcond.2.2⟩
        · rintro ⟨h1, _, _, _⟩
          exact h1
      · rw [if_neg hcond]
        constructor
        · intro heq
          cases heq
        · rintro ⟨h1, h2, h3, h4⟩
          injection h1 with h5
          subst h5
          exact absurd ⟨h2, h3, h4⟩ hcond

theorem checkHorz_some_red {b : Board} {x y : Nat} {u : Team}
    (h : fget b (x * H + y) = some u) :
    checkHorz b x y =
      if fget b ((x + 1) * H + y) = some u ∧ fget b ((x + 2) * H + y) = some u ∧ fget b ((x + 3) * H + y) = some u then some u else none := by
  unfold checkHorz
  rw [h]

theorem checkHorz_none_red {b : Board} {x y : Nat}
    (h : fget b (x * H + y) = none) : checkHorz b x y = none := by
  unfold checkHorz
  rw [h]

theorem checkHorz_eq_some {b : Board} {x y : Nat} {t : Team} :
    checkHorz b x y = some t ↔ horzLine b x y t := by
  unfold horzLine
  cases h : fget b (x * H + y) with
  | none =>
      rw [checkHorz_none_red h]
      simp [h]
  | some u =>
      rw [checkHorz_some_red h]
      by_cases hcond : fget b ((x + 1) * H + y) = some u ∧ fget b ((x + 2) * H + y) = some u ∧ fget b ((x + 3) * H + y) = some u
      · rw [if_pos hcond]
        constructor
        · intro heq
          injection heq with h5
          subst h5
          exact ⟨rfl, hcond.1, hcond.2.1, hcond.2.2⟩
        · rintro ⟨h1, _, _, _⟩
          exact h1
      · rw [if_neg hcond]
        constructor
        · intro heq
          cases heq
        · rintro ⟨h1, h2, h3, h4⟩
          injection h1 with h5
          subst h5
          exact absurd ⟨h2, h3, h4⟩ hcond

theorem checkDiagUp_some_red {b : Board} {x y : Nat} {u : Team}
    (h : fget b (x * H + y) = some u) :
    checkDiagUp b x y =
      if fget b ((x + 1) * H + y + 1) = some u ∧ fget b ((x + 2) * H + y + 2) = some u ∧ fget b ((x + 3) * H + y + 3) = some u then some u else none := by
  unfold checkDiagUp
  rw [h]

theorem checkDiagUp_none_red {b : Board} {x y : Nat}
    (h : fget b (x * H + y) = none) : checkDiagUp b x y = none := by
  unfold checkDiagUp
  rw [h]

theorem checkDiagUp_eq_some {b : Board} {x y : Nat} {t : Team} :
    checkDiagUp b x y = some t ↔ diagUpLine b x y t := by
  unfold diagUpLine
  cases h : fget b (x * H + y) with
  | none =>
      rw [checkDiagUp_none_red h]
      simp [h]
  | some u =>
      rw [checkDiagUp_some_red h]
      by_cases hcond : fget b ((x + 1) * H + y + 1) = some u ∧ fget b ((x + 2) * H + y + 2) = some u ∧ fget b ((x + 3) * H + y + 3) = some u
      · rw [if_pos hcond]
        constructor
        · intro heq
          injection heq with h5
          subst h5
          exact ⟨rfl, hcond.1, hcond.2.1, hcond.2.2⟩
        · rintro ⟨h1, _, _, _⟩
          exact h1
      · rw [if_neg hcond]
        constructor
        · intro heq
          cases heq
        · rintro ⟨h1, h2, h3, h4⟩
          injection h1 with h5
          subst h5
          exact absurd ⟨h2, h3, h4⟩ hcond

theorem checkDiagDown_some_red {b : Board} {x y : Nat} {u : Team}
    (h : fget b (x * H + y) = some u) :
    checkDiagDown b x y =
      if fget b ((x - 1) * H + y + 1) = some u ∧ fget b ((x - 2) * H + y + 2) = some u ∧ fget b ((x - 3) * H + y + 3) = some u then some u else none := by
  unfold checkDiagDown
  rw [h]

theorem checkDiagDown_none_red {b : Board} {x y : Nat}
    (h : fget b (x * H + y) = none) : checkDiagDown b x y = none := by
  unfold checkDiagDown
  rw [h]

theorem checkDiagDown_eq_some {b : Board} {x y : Nat} {t : Team} :
    checkDiagDown b x y = some t ↔ diagDownLine b x y t := by
  unfold diagDownLine
  cases h : fget b (x * H + y) with
  | none =>
      rw [checkDiagDown_none_red h]
      simp [h]
  | some u =>
      rw [checkDiagDown_some_red h]
      by_cases hcond : fget b ((x - 1) * H + y + 1) = some u ∧ fget b ((x - 2) * H + y + 2) = some u ∧ fget b ((x - 3) * H + y + 3) = some u
      · rw [if_pos hcond]
        constructor
        · intro heq
          injection heq with h5
          subst h5
          exact ⟨rfl, hcond.1, hcond.2.1, hcond.2.2⟩
        · rintro ⟨h1, _, _, _⟩
          exact h1
      · rw [if_neg hcond]
        constructor
        · intro heq
          cases heq
        · rintro ⟨h1, h2, h3, h4⟩
          injection h1 with h5
          subst h5
          exact absurd ⟨h2, h3, h4⟩ hcond

/-! ### Scan components against the existential reading -/

theorem vertScan_none_iff {b : Board} :
    vertScan b = none ↔ ∀ t, ¬ hasVert b t := by
  unfold vertScan
  rw [List.findSome?_eq_none_iff]
  constructor
  · rintro hall t ⟨x, y, hx, hy, hline⟩
    have h1 := hall x (List.mem_range.mpr hx)
    rw [List.findSome?_eq_none_iff] at h1
    have h2 := h1 y (List.mem_range.mpr hy)
    rw [checkVert_eq_some.mpr hline] at h2
    cases h2
  · intro hnone x hx
    rw [List.findSome?_eq_none_iff]
    intro y hy
    cases hcv : checkVert b x y with
    | none => rfl
    | some u =>
        exact absurd ⟨x, y, List.mem_range.mp hx, List.mem_range.mp hy,
          checkVert_eq_some.mp hcv⟩ (hnone u)

theorem vertScan_some_elim {b : Board} {u : Team} (h : vertScan b = some u) :
    hasVert b u := by
  obtain ⟨x, hx, h2⟩ := List.exists_of_findSome?_eq_some h
  obtain ⟨y, hy, h3⟩ := List.exists_of_findSome?_eq_some h2
  exact ⟨x, y, List.mem_range.mp hx, List.mem_range.mp hy,
    checkVert_eq_some.mp h3⟩

theorem horzScan_none_iff {b : Board} :
    horzScan b = none ↔ ∀ t, ¬ hasHorz b t := by
  unfold horzScan
  rw [List.findSome?_eq_none_iff]
  constructor
  · rintro hall t ⟨x, y, hx, hy, hline⟩
    have h1 := hall y (List.mem_range.mpr hy)
    rw [List.findSome?_eq_none_iff] at h1
    have h2 := h1 x (List.mem_range.mpr hx)
    rw [checkHorz_eq_some.mpr hline] at h2
    cases h2
  · intro hnone y hy
    rw [List.findSome?_eq_none_iff]
    intro x hx
    cases hcv : checkHorz b x y with
    | none => rfl
    | some u =>
        exact absurd ⟨x, y, List.mem_range.mp hx, List.mem_range.mp hy,
          checkHorz_eq_some.mp hcv⟩ (hnone u)

theorem horzScan_some_elim {b : Board} {u : Team} (h : horzScan b = some u) :
    hasHorz b u := by
  obtain ⟨y, hy, h2⟩ := List.exists_of_findSome?_eq_some h
  obtain ⟨x, hx, h3⟩ := List.exists_of_findSome?_eq_some h2
  exact ⟨x, y, List.mem_range.mp hx, List.mem_range.mp hy,
    checkHorz_eq_some.mp h3⟩

theorem diagUpScan_none_iff {b : Board} :
    diagUpScan b = none ↔ ∀ t, ¬ hasDiagUp b t := by
  unfold diagUpScan
  rw [List.findSome?_eq_none_iff]
  constructor
  · rintro hall t ⟨x, y, hx, hy, hline⟩
    have h1 := hall x (List.mem_range.mpr hx)
    rw [List.findSome?_eq_none_iff] at h1
    have h2 := h1 y (List.mem_range.mpr hy)
    rw [checkDiagUp_eq_some.mpr hline] at h2
    cases h2
  · intro hnone x hx
    rw [List.findSome?_eq_none_iff]
    intro y hy
    cases hcv : checkDiagUp b x y with
    | none => rfl
    | some u =>
        exact absurd ⟨x, y, List.mem_range.mp hx, List.mem_range.mp hy,
          checkDiagUp_eq_some.mp hcv⟩ (hnone u)

theorem diagUpScan_some_elim {b : Board} {u : Team} (h : diagUpScan b = some u) :
    hasDiagUp b u := by
  obtain ⟨x, hx, h2⟩ := List.exists_of_findSome?_eq_some h
  obtain ⟨y, hy, h3⟩ := List.exists_of_findSome?_eq_some h2
  exact ⟨x, y, List.mem_range.mp hx, List.mem_range.mp hy,
    checkDiagUp_eq_some.mp h3⟩

theorem diagDownScan_none_iff {b : Board} :
    diagDownScan b = none ↔ ∀ t, ¬ hasDiagDown b t := by
  unfold diagDownScan
  rw [List.findSome?_eq_none_iff]
  constructor
  · rintro hall t ⟨x, y, hx3, hx, hy, hline⟩
    have hmem : x ∈ List.range' 3 (W - 3) := by
      rw [List.mem_range'_1]
      simp only [W] at *
      omega
    have h1 := hall x hmem
    rw [List.findSome?_eq_none_iff] at h1
    have h2 := h1 y (List.mem_range.mpr hy)
    rw [checkDiagDown_eq_some.mpr hline] at h2
    cases h2
  · intro hnone x hx
    rw [List.findSome?_eq_none_iff]
    intro y hy
    cases hcv : checkDiagDown b x y with
    | none => rfl
    | some u =>
        rw [List.mem_range'_1] at hx
        exact absurd ⟨x, y, hx.1, by simp only [W] at *; omega,
          List.mem_range.mp hy, checkDiagDown_eq_some.mp hcv⟩ (hnone u)

theorem diagDownScan_some_elim {b : Board} {u : Team}
    (h : diagDownScan b = some u) : hasDiagDown b u := by
  obtain ⟨x, hx, h2⟩ := List.exists_of_findSome?_eq_some h
  obtain ⟨y, hy, h3⟩ := List.exists_of_findSome?_eq_some h2
  rw [List.mem_range'_1] at hx
  exact ⟨x, y, hx.1, by simp only [W] at *; omega, List.mem_range.mp hy,
    checkDiagDown_eq_some.mp h3⟩

theorem orElse_some {α : Type} (a : α) (f : Unit → Option α) :
    (some a).orElse f = some a := rfl

theorem orElse_none {α : Type} (f : Unit → Option α) :
    (none : Option α).orElse f = f () := rfl

/-- The full scan comes up empty exactly when no four-in-a-row exists. -/
theorem winScan_none_iff {b : Board} :
    winScan b = none ↔ ∀ t, ¬ HasWin b t := by
  unfold winScan
  constructor
  · intro h t hw
    cases h1 : vertScan b with
    | some u => rw [h1, orElse_some] at h; cases h
    | none =>
    rw [h1, orElse_none] at h
    cases h2 : horzScan b with
    | some u => rw [h2, orElse_some] at h; cases h
    | none =>
    rw [h2, orElse_none] at h
    cases h3 : diagUpScan b with
    | some u => rw [h3, orElse_some] at h; cases h
    | none =>
    rw [h3, orElse_none] at h
    rcases hw with hw | hw | hw | hw
    · exact vertScan_none_iff.mp h1 t hw
    · exact horzScan_none_iff.mp h2 t hw
    · exact diagUpScan_none_iff.mp h3 t hw
    · exact diagDownScan_none_iff.mp h t hw
  · intro hnone
    have h1 : vertScan b = none := by
      rw [vertScan_none_iff]
      exact fun t hw => hnone t (Or.inl hw)
    have h2 : horzScan b = none := by
      rw [horzScan_none_iff]
      exact fun t hw => hnone t (Or.inr (Or.inl hw))
    have h3 : diagUpScan b = none := by
      rw [diagUpScan_none_iff]
      exact fun t hw => hnone t (Or.inr (Or.inr (Or.inl hw)))
    have h4 : diagDownScan b = none := by
      rw [diagDownScan_none_iff]
      exact fun t hw => hnone t (Or.inr (Or.inr (Or.inr hw)))
    rw [h1, orElse_none, h2, orElse_none, h3, orElse_none, h4]

/-- A successful full scan found a real four-in-a-row. -/
theorem winScan_some_elim {b : Board} {u : Team} (h : winScan b = some u) :
    HasWin b u := by
  unfold winScan at h
  cases h1 : vertScan b with
  | some v =>
      rw [h1, orElse_some] at h
      cases h
      exact Or.inl (vertScan_some_elim h1)
  | none =>
  rw [h1, orElse_none] at h
  cases h2 : horzScan b with
  | some v =>
      rw [h2, orElse_some] at h
      cases h
      exact Or.inr (Or.inl (horzScan_some_elim h2))
  | none =>
  rw [h2, orElse_none] at h
  cases h3 : diagUpScan b with
  | some v =>
      rw [h3, orElse_some] at h
      cases h
      exact Or.inr (Or.inr (Or.inl (diagUpScan_some_elim h3)))
  | none =>
  rw [h3, orElse_none] at h
  exact Or.inr (Or.inr (Or.inr (diagDownScan_some_elim h)))

/-! ### Wrapping-arithmetic evaluation and `field_get_safe` helpers -/

theorem wsub_eval {a k : Nat} (ha : a < 7) (hk : k ≤ a) : wsub a k = a - k :=
  wsub_of_le (by simp only [U64]; omega) hk

theorem wadd_eval {a k : Nat} (ha : a < 7) (hk : k ≤ 3) : wadd a k = a + k := by
  simp only [wadd, U64]
  omega

/-- A wrapped subtraction landing in the board region forces the subtraction
not to underflow. -/
theorem wsub_lt_elim {a k : Nat} (ha : a < 7) (hk1 : 0 < k) (hk : k ≤ 3)
    (h : wsub a k < 7) : k ≤ a ∧ wsub a k = a - k := by
  simp only [wsub, U64] at *
  omega

theorem fgs_intro {b : Board} {X y : Nat} {t : Team} (hX : X < W) (hy : y < H)
    (hcell : fget b (X * H + y) = some t) : field_get_safe b X y = some t :=
  fgs_eq_some_iff.mpr ⟨hX, hy, hcell⟩

/-- Eliminate a safe lookup at a wrapped-subtraction column. -/
theorem fgs_wsub_x {b : Board} {x y k : Nat} {t : Team} (hx : x < W)
    (hk1 : 0 < k) (hk : k ≤ 3)
    (h : field_get_safe b (wsub x k) y = some t) :
    k ≤ x ∧ y < H ∧ fget b ((x - k) * H + y) = some t := by
  obtain ⟨h1, h2, h3⟩ := fgs_eq_some_iff.mp h
  have he := wsub_lt_elim (by simp only [W] at hx; exact hx) hk1 hk
    (by simp only [W] at h1; exact h1)
  rw [he.2] at h3
  exact ⟨he.1, h2, h3⟩

/-- Eliminate a safe lookup at a wrapped-addition column. -/
theorem fgs_wadd_x {b : Board} {x y k : Nat} {t : Team} (hx : x < W) (hk : k ≤ 3)
    (h : field_get_safe b (wadd x k) y = some t) :
    x + k < W ∧ y < H ∧ fget b ((x + k) * H + y) = some t := by
  obtain ⟨h1, h2, h3⟩ := fgs_eq_some_iff.mp h
  have he : wadd x k = x + k := wadd_eval (by simp only [W] at hx; exact hx) hk
  rw [he] at h1 h3
  exact ⟨h1, h2, h3⟩

/-- Eliminate a safe lookup at a wrapped-subtraction row. -/
theorem fgs_wsub_y {b : Board} {x y k : Nat} {t : Team} (hy : y < H)
    (hk1 : 0 < k) (hk : k ≤ 3)
    (h : field_get_safe b x (wsub y k) = some t) :
    k ≤ y ∧ x < W ∧ fget b (x * H + (y - k)) = some t := by
  obtain ⟨h1, h2, h3⟩ := fgs_eq_some_iff.mp h
  have hy7 : y < 7 := by simp only [H] at hy; omega
  have hw7 : wsub y k < 7 := by simp only [H] at h2; omega
  have he := wsub_lt_elim hy7 hk1 hk hw7
  rw [he.2] at h3
  exact ⟨he.1, h1, h3⟩

/-- Eliminate a safe lookup at a wrapped-addition row. -/
theorem fgs_wadd_y {b : Board} {x y k : Nat} {t : Team} (hy : y < H) (hk : k ≤ 3)
    (h : field_get_safe b x (wadd y k) = some t) :
    y + k < H ∧ x < W ∧ fget b (x * H + (y + k)) = some t := by
  obtain ⟨h1, h2, h3⟩ := fgs_eq_some_iff.mp h
  have he : wadd y k = y + k := wadd_eval (by simp only [H] at hy; omega) hk
  rw [he] at h2 h3
  exact ⟨h2, h1, h3⟩

/-- Eliminate a safe lookup on a wrapped up-diagonal neighbor below-left. -/
theorem fgs_wsub_xy {b : Board} {x y k : Nat} {t : Team} (hx : x < W) (hy : y < H)
    (hk1 : 0 < k) (hk : k ≤ 3)
    (h : field_get_safe b (wsub x k) (wsub y k) = some t) :
    k ≤ x ∧ k ≤ y ∧ fget b ((x - k) * H + (y - k)) = some t := by
  obtain ⟨h1, h2, h3⟩ := fgs_eq_some_iff.mp h
  have hex := wsub_lt_elim (by simp only [W] at hx; exact hx) hk1 hk
    (by simp only [W] at h1; exact h1)
  have hy7 : y < 7 := by simp only [H] at hy; omega
  have hw7 : wsub y k < 7 := by simp only [H] at h2; omega
  have hey := wsub_lt_elim hy7 hk1 hk hw7
  rw [hex.2, hey.2] at h3
  exact ⟨hex.1, hey.1, h3⟩

/-- Eliminate a safe lookup on a wrapped up-diagonal neighbor above-right. -/
theorem fgs_wadd_xy {b : Board} {x y k : Nat} {t : Team} (hx : x < W) (hy : y < H)
    (hk : k ≤ 3)
    (h : field_get_safe b (wadd x k) (wadd y k) = some t) :
    x + k < W ∧ y + k < H ∧ fget b ((x + k) * H + (y + k)) = some t := by
  obtain ⟨h1, h2, h3⟩ := fgs_eq_some_iff.mp h
  have hex : wadd x k = x + k := wadd_eval (by simp only [W] at hx; exact hx) hk
  have hey : wadd y k = y + k := wadd_eval (by simp only [H] at hy; omega) hk
  rw [hex, hey] at h3
  rw [hex] at h1
  rw [hey] at h2
  exact ⟨h1, h2, h3⟩

/-- Eliminate a safe lookup on a wrapped down-diagonal neighbor above-left. -/
theorem fgs_wsub_x_wadd_y {b : Board} {x y k : Nat} {t : Team} (hx : x < W)
    (hy : y < H) (hk1 : 0 < k) (hk : k ≤ 3)
    (h : field_get_safe b (wsub x k) (wadd y k) = some t) :
    k ≤ x ∧ y + k < H ∧ fget b ((x - k) * H + (y + k)) = some t := by
  obtain ⟨h1, h2, h3⟩ := fgs_eq_some_iff.mp h
  have hex := wsub_lt_elim (by simp only [W] at hx; exact hx) hk1 hk
    (by simp only [W] at h1; exact h1)
  have hey : wadd y k = y + k := wadd_eval (by simp only [H] at hy; omega) hk
  rw [hex.2, hey] at h3
  rw [hey] at h2
  exact ⟨hex.1, h2, h3⟩

/-- Eliminate a safe lookup on a wrapped down-diagonal neighbor below-right. -/
theorem fgs_wadd_x_wsub_y {b : Board} {x y k : Nat} {t : Team} (hx : x < W)
    (hy : y < H) (hk1 : 0 < k) (hk : k ≤ 3)
    (h : field_get_safe b (wadd x k) (wsub y k) = some t) :
    x + k < W ∧ k ≤ y ∧ fget b ((x + k) * H + (y - k)) = some t := by
  obtain ⟨h1, h2, h3⟩ := fgs_eq_some_iff.mp h
  have hex : wadd x k = x + k := wadd_eval (by simp only [W] at hx; exact hx) hk
  have hy7 : y < 7 := by simp only [H] at hy; omega
  have hw7 : wsub y k < 7 := by simp only [H] at h2; omega
  have hey := wsub_lt_elim hy7 hk1 hk hw7
  rw [hex, hey.2] at h3
  rw [hex] at h1
  exact ⟨h1, hey.1, h3⟩

/-! ### Reduction lemmas for `game_result` and `game_result_on_change` -/

theorem game_result_of_winScan_none {b : Board} (h : winScan b = none) :
    game_result b =
      if b.field.any (fun t => t.isNone) then none else some GameResult.Draw := by
  unfold game_result
  rw [h]

theorem game_result_of_winScan_some {b : Board} {u : Team}
    (h : winScan b = some u) : game_result b = some (GameResult.Winner u) := by
  unfold game_result
  rw [h]

theorem winScan_none_of_result_none {b : Board} (h : game_result b = none) :
    winScan b = none := by
  cases hws : winScan b with
  | none => rfl
  | some u =>
      rw [game_result_of_winScan_some hws] at h
      cases h

theorem on_change_red_some {b : Board} {column y : Nat} {t : Team}
    (hscan : scanLoop b column H (H - 1) = .ok y)
    (hfgs : field_get_safe b column y = some t) :
    game_result_on_change b column =
      (if xDirWin b column y t then .ok (some (GameResult.Winner t))
       else if yDirWin b column y t then .ok (some (GameResult.Winner t))
       else if diagUpWin b column y t then .ok (some (GameResult.Winner t))
       else if diagDownWin b column y t then .ok (some (GameResult.Winner t))
       else if b.field.any (fun t => t.isNone) then .ok none
       else .ok (some GameResult.Draw)) := by
  rw [on_change_eq_of_scan hscan, hfgs]

/-- If some direction condition holds at the anchor, the incremental check
reports the anchor team as the winner. -/
theorem on_change_winner_of_cond {b : Board} {column y : Nat} {t : Team}
    (hscan : scanLoop b column H (H - 1) = .ok y)
    (hfgs : field_get_safe b column y = some t)
    (hcond : xDirWin b column y t ∨ yDirWin b column y t ∨
      diagUpWin b column y t ∨ diagDownWin b column y t) :
    game_result_on_change b column = .ok (some (GameResult.Winner t)) := by
  rw [on_change_red_some hscan hfgs]
  by_cases h1 : xDirWin b column y t
  · rw [if_pos h1]
  · rw [if_neg h1]
    by_cases h2 : yDirWin b column y t
    · rw [if_pos h2]
    · rw [if_neg h2]
      by_cases h3 : diagUpWin b column y t
      · rw [if_pos h3]
      · rw [if_neg h3]
        by_cases h4 : diagDownWin b column y t
        · rw [if_pos h4]
        · rcases hcond with h | h | h | h
          · exact absurd h h1
          · exact absurd h h2
          · exact absurd h h3
          · exact absurd h h4

/-- If no direction condition holds at the anchor, the incremental check
falls through to the draw test. -/
theorem on_change_nowin {b : Board} {column y : Nat} {t : Team}
    (hscan : scanLoop b column H (H - 1) = .ok y)
    (hfgs : field_get_safe b column y = some t)
    (h1 : ¬ xDirWin b column y t) (h2 : ¬ yDirWin b column y t)
    (h3 : ¬ diagUpWin b column y t) (h4 : ¬ diagDownWin b column y t) :
    game_result_on_change b column =
      .ok (if b.field.any (fun t => t.isNone) then none
           else some GameResult.Draw) := by
  rw [on_change_red_some hscan hfgs, if_neg h1, if_neg h2, if_neg h3, if_neg h4]
  by_cases hany : b.field.any (fun t => t.isNone)
  · rw [if_pos hany, if_pos hany]
  · rw [if_neg hany, if_neg hany]

/-! ### Lines through the anchor: vertical -/

/-- At an occupied anchor, the incremental vertical condition is exactly a
vertical line ending at the anchor. -/
theorem yDirWin_iff {b : Board} {x y : Nat} {t : Team} (hx : x < W) (hy : y < H)
    (hanchor : fget b (x * H + y) = some t) :
    yDirWin b x y t ↔ (3 ≤ y ∧ vertLine b x (y - 3) t) := by
  unfold yDirWin
  constructor
  · rintro ⟨f1, f2, f3⟩
    obtain ⟨h3y, _, c1⟩ := fgs_wsub_y hy (by omega) (by omega) f1
    obtain ⟨_, _, c2⟩ := fgs_wsub_y hy (by omega) (by omega) f2
    obtain ⟨_, _, c3⟩ := fgs_wsub_y hy (by omega) (by omega) f3
    refine ⟨h3y, ?_⟩
    unfold vertLine
    have e1 : x * H + (y - 3) + 1 = x * H + (y - 2) := by omega
    have e2 : x * H + (y - 3) + 2 = x * H + (y - 1) := by omega
    have e3 : x * H + (y - 3) + 3 = x * H + y := by omega
    exact ⟨c1, by rw [e1]; exact c2, by rw [e2]; exact c3, by rw [e3]; exact hanchor⟩
  · rintro ⟨h3y, hline⟩
    obtain ⟨c1, c2, c3, c4⟩ := hline
    have hy7 : y < 7 := by simp only [H] at hy; omega
    have e1 : x * H + (y - 3) + 1 = x * H + (y - 2) := by omega
    have e2 : x * H + (y - 3) + 2 = x * H + (y - 1) := by omega
    rw [e1] at c2
    rw [e2] at c3
    refine ⟨?_, ?_, ?_⟩
    · rw [wsub_eval hy7 (by omega)]
      exact fgs_intro hx (by simp only [H] at *; omega) c1
    · rw [wsub_eval hy7 (by omega)]
      exact fgs_intro hx (by simp only [H] at *; omega) c2
    · rw [wsub_eval hy7 (by omega)]
      exact fgs_intro hx (by simp only [H] at *; omega) c3

/-- In the updated board, a vertical line must pass through the written cell
(otherwise it already existed), and by gravity it must end exactly at it. -/
theorem hasVert_through {b b' : Board} {c y0 : Nat} {t u : Team}
    (hfield : b'.field = b.field.set (c * H + y0) (some t))
    (hc : c < W) (hy0 : y0 < H)
    (hanchor : fget b' (c * H + y0) = some t)
    (hnob : ¬ hasVert b u)
    (habove : ∀ y', y0 < y' → y' < H → fget b' (c * H + y') = none)
    (hw : hasVert b' u) :
    u = t ∧ 3 ≤ y0 ∧ vertLine b' c (y0 - 3) u := by
  obtain ⟨x, y, hxW, hyH3, hline⟩ := hw
  obtain ⟨c1, c2, c3, c4⟩ := hline
  by_cases hthrough : x = c ∧ y ≤ y0 ∧ y0 ≤ y + 3
  · obtain ⟨hxc, hyy1, hyy2⟩ := hthrough
    subst hxc
    have htop : y + 3 ≤ y0 := by
      by_contra hcon
      push_neg at hcon
      have hno : fget b' (x * H + (y + 3)) = none :=
        habove (y + 3) (by omega) (by simp only [H] at *; omega)
      have e : x * H + (y + 3) = x * H + y + 3 := by omega
      rw [e] at hno
      rw [hno] at c4
      cases c4
    have hy0eq : y0 = y + 3 := by omega
    have hut : u = t := by
      have e : x * H + y0 = x * H + y + 3 := by omega
      rw [e] at hanchor
      rw [hanchor] at c4
      injection c4 with h5
      exact h5.symm
    refine ⟨hut, by omega, ?_⟩
    have ey : y0 - 3 = y := by omega
    rw [ey]
    exact ⟨c1, c2, c3, c4⟩
  · exfalso
    apply hnob
    have hyH : y + 3 < H := by simp only [H] at *; omega
    have hne : ∀ k, k ≤ 3 → x * H + y + k ≠ c * H + y0 := by
      intro k hk heq
      have e : x * H + y + k = x * H + (y + k) := by omega
      rw [e] at heq
      obtain ⟨hh1, hh2⟩ := index_inj (by omega) hy0 heq
      exact hthrough ⟨hh1, by omega, by omega⟩
    refine ⟨x, y, hxW, hyH3, ?_, ?_, ?_, ?_⟩
    · rw [← fget_update_other hfield (by
        have := hne 0 (by omega)
        intro heq
        exact this (by omega))]
      exact c1
    · rw [← fget_update_other hfield (hne 1 (by omega))]
      exact c2
    · rw [← fget_update_other hfield (hne 2 (by omega))]
      exact c3
    · rw [← fget_update_other hfield (hne 3 (by omega))]
      exact c4

/-! ### Lines through the anchor: horizontal -/

/-- At an occupied anchor, the incremental horizontal condition is exactly a
horizontal line through the anchor. -/
theorem xDirWin_iff {b : Board} {x y : Nat} {t : Team} (hx : x < W) (hy : y < H)
    (hanchor : fget b (x * H + y) = some t) :
    xDirWin b x y t ↔
      ∃ j, j ≤ 3 ∧ j ≤ x ∧ x - j < W - 3 ∧ horzLine b (x - j) y t := by
  have hx7 : x < 7 := by simp only [W] at hx; exact hx
  unfold xDirWin
  constructor
  · rintro (⟨f1, f2, f3⟩ | ⟨f1, f2, f3⟩ | ⟨f1, f2, f3⟩ | ⟨f1, f2, f3⟩)
    · obtain ⟨hk3, _, c1⟩ := fgs_wsub_x hx (by omega) (by omega) f1
      obtain ⟨_, _, c2⟩ := fgs_wsub_x hx (by omega) (by omega) f2
      obtain ⟨_, _, c3⟩ := fgs_wsub_x hx (by omega) (by omega) f3
      refine ⟨3, by omega, hk3, by simp only [W] at *; omega, ?_⟩
      unfold horzLine
      have e1 : x - 3 + 1 = x - 2 := by omega
      have e2 : x - 3 + 2 = x - 1 := by omega
      have e3 : x - 3 + 3 = x := by omega
      exact ⟨c1, by rw [e1]; exact c2, by rw [e2]; exact c3, by rw [e3]; exact hanchor⟩
    · obtain ⟨hk2, _, c1⟩ := fgs_wsub_x hx (by omega) (by omega) f1
      obtain ⟨_, _, c2⟩ := fgs_wsub_x hx (by omega) (by omega) f2
      obtain ⟨hb, _, c3⟩ := fgs_wadd_x hx (by omega) f3
      refine ⟨2, by omega, hk2, by simp only [W] at *; omega, ?_⟩
      unfold horzLine
      have e1 : x - 2 + 1 = x - 1 := by omega
      have e2 : x - 2 + 2 = x := by omega
      have e3 : x - 2 + 3 = x + 1 := by omega
      exact ⟨c1, by rw [e1]; exact c2, by rw [e2]; exact hanchor, by rw [e3]; exact c3⟩
    · obtain ⟨hk1, _, c1⟩ := fgs_wsub_x hx (by omega) (by omega) f1
      obtain ⟨_, _, c2⟩ := fgs_wadd_x hx (by omega) f2
      obtain ⟨hb, _, c3⟩ := fgs_wadd_x hx (by omega) f3
      refine ⟨1, by omega, hk1, by simp only [W] at *; omega, ?_⟩
      unfold horzLine
      have e1 : x - 1 + 1 = x := by omega
      have e2 : x - 1 + 2 = x + 1 := by omega
      have e3 : x - 1 + 3 = x + 2 := by omega
      exact ⟨c1, by rw [e1]; exact hanchor, by rw [e2]; exact c2, by rw [e3]; exact c3⟩
    · obtain ⟨_, _, c1⟩ := fgs_wadd_x hx (by omega) f1
      obtain ⟨_, _, c2⟩ := fgs_wadd_x hx (by omega) f2
      obtain ⟨hb, _, c3⟩ := fgs_wadd_x hx (by omega) f3
      refine ⟨0, by omega, by omega, by simp only [W] at *; omega, ?_⟩
      unfold horzLine
      have e0 : x - 0 = x := by omega
      rw [e0]
      exact ⟨hanchor, c1, c2, c3⟩
  · rintro ⟨j, hj3, hjx, hbound, hline⟩
    obtain ⟨c1, c2, c3, c4⟩ := hline
    have hbW : x - j + 3 < W := by simp only [W] at *; omega
    interval_cases j
    · have e1 : x - 0 = x := by omega
      have e2 : x - 0 + 1 = x + 1 := by omega
      have e3 : x - 0 + 2 = x + 2 := by omega
      have e4 : x - 0 + 3 = x + 3 := by omega
      rw [e2] at c2
      rw [e3] at c3
      rw [e4] at c4
      refine Or.inr (Or.inr (Or.inr ⟨?_, ?_, ?_⟩))
      · rw [wadd_eval hx7 (by omega)]
        exact fgs_intro (by omega) hy c2
      · rw [wadd_eval hx7 (by omega)]
        exact fgs_intro (by omega) hy c3
      · rw [wadd_eval hx7 (by omega)]
        exact fgs_intro (by omega) hy c4
    · have e2 : x - 1 + 1 = x := by omega
      have e3 : x - 1 + 2 = x + 1 := by omega
      have e4 : x - 1 + 3 = x + 2 := by omega
      rw [e3] at c3
      rw [e4] at c4
      refine Or.inr (Or.inr (Or.inl ⟨?_, ?_, ?_⟩))
      · rw [wsub_eval hx7 (by omega)]
        exact fgs_intro (by omega) hy c1
      · rw [wadd_eval hx7 (by omega)]
        exact fgs_intro (by omega) hy c3
      · rw [wadd_eval hx7 (by omega)]
        exact fgs_intro (by omega) hy c4
    · have e2 : x - 2 + 1 = x - 1 := by omega
      have e4 : x - 2 + 3 = x + 1 := by omega
      rw [e2] at c2
      rw [e4] at c4
      refine Or.inr (Or.inl ⟨?_, ?_, ?_⟩)
      · rw [wsub_eval hx7 (by omega)]
        exact fgs_intro (by omega) hy c1
      · rw [wsub_eval hx7 (by omega)]
        exact fgs_intro (by omega) hy c2
      · rw [wadd_eval hx7 (by omega)]
        exact fgs_intro (by omega) hy c4
    · have e2 : x - 3 + 1 = x - 2 := by omega
      have e3 : x - 3 + 2 = x - 1 := by omega
      rw [e2] at c2
      rw [e3] at c3
      refine Or.inl ⟨?_, ?_, ?_⟩
      · rw [wsub_eval hx7 (by omega)]
        exact fgs_intro (by omega) hy c1
      · rw [wsub_eval hx7 (by omega)]
        exact fgs_intro (by omega) hy c2
      · rw [wsub_eval hx7 (by omega)]
        exact fgs_intro (by omega) hy c3

/-- In the updated board, a horizontal line must pass through the written
cell. -/
theorem hasHorz_through {b b' : Board} {c y0 : Nat} {t u : Team}
    (hfield : b'.field = b.field.set (c * H + y0) (some t))
    (hc : c < W) (hy0 : y0 < H)
    (hanchor : fget b' (c * H + y0) = some t)
    (hnob : ¬ hasHorz b u)
    (hw : hasHorz b' u) :
    u = t ∧ ∃ j, j ≤ 3 ∧ j ≤ c ∧ c - j < W - 3 ∧ horzLine b' (c - j) y0 u := by
  obtain ⟨x0, y, hx0, hyH, hline⟩ := hw
  obtain ⟨c1, c2, c3, c4⟩ := hline
  by_cases hthrough : y = y0 ∧ x0 ≤ c ∧ c ≤ x0 + 3
  · obtain ⟨hyy, hcl, hcr⟩ := hthrough
    subst hyy
    have hj : c - x0 = 0 ∨ c - x0 = 1 ∨ c - x0 = 2 ∨ c - x0 = 3 := by omega
    have hut : u = t := by
      rcases hj with hj | hj | hj | hj
      · have e : c = x0 := by omega
        subst e
        rw [hanchor] at c1
        injection c1 with h5
        exact h5.symm
      · have e : c * H + y = (x0 + 1) * H + y := by
          have : c = x0 + 1 := by omega
          rw [this]
        rw [e] at hanchor
        rw [hanchor] at c2
        injection c2 with h5
        exact h5.symm
      · have e : c * H + y = (x0 + 2) * H + y := by
          have : c = x0 + 2 := by omega
          rw [this]
        rw [e] at hanchor
        rw [hanchor] at c3
        injection c3 with h5
        exact h5.symm
      · have e : c * H + y = (x0 + 3) * H + y := by
          have : c = x0 + 3 := by omega
          rw [this]
        rw [e] at hanchor
        rw [hanchor] at c4
        injection c4 with h5
        exact h5.symm
    refine ⟨hut, c - x0, by omega, by omega, by omega, ?_⟩
    have e : c - (c - x0) = x0 := by omega
    rw [e]
    exact ⟨c1, c2, c3, c4⟩
  · exfalso
    apply hnob
    have hne : ∀ k, k ≤ 3 → (x0 + k) * H + y ≠ c * H + y0 := by
      intro k hk heq
      obtain ⟨hh1, hh2⟩ := index_inj hyH hy0 heq
      exact hthrough ⟨hh2, by omega, by omega⟩
    refine ⟨x0, y, hx0, hyH, ?_, ?_, ?_, ?_⟩
    · rw [← fget_update_other hfield (by
        have := hne 0 (by omega)
        intro heq
        exact this (by
          have e : (x0 + 0) * H + y = x0 * H + y := by
            have : x0 + 0 = x0 := by omega
            rw [this]
          rw [e]
          exact heq))]
      exact c1
    · rw [← fget_update_other hfield (hne 1 (by omega))]
      exact c2
    · rw [← fget_update_other hfield (hne 2 (by omega))]
      exact c3
    · rw [← fget_update_other hfield (hne 3 (by omega))]
      exact c4

/-! ### Lines through the anchor: ascending diagonal -/

/-- At an occupied anchor, the incremental ascending-diagonal condition is
exactly an ascending diagonal line through the anchor. -/
theorem diagUpWin_iff {b : Board} {x y : Nat} {t : Team} (hx : x < W) (hy : y < H)
    (hanchor : fget b (x * H + y) = some t) :
    diagUpWin b x y t ↔
      ∃ j, j ≤ 3 ∧ j ≤ x ∧ j ≤ y ∧ x - j < W - 3 ∧ y - j < H - 3 ∧
        diagUpLine b (x - j) (y - j) t := by
  have hx7 : x < 7 := by simp only [W] at hx; exact hx
  have hy7 : y < 7 := by simp only [H] at hy; omega
  unfold diagUpWin
  constructor
  · rintro (⟨f1, f2, f3⟩ | ⟨f1, f2, f3⟩ | ⟨f1, f2, f3⟩ | ⟨f1, f2, f3⟩)
    · obtain ⟨hk3, hl3, c1⟩ := fgs_wsub_xy hx hy (by omega) (by omega) f1
      obtain ⟨_, _, c2⟩ := fgs_wsub_xy hx hy (by omega) (by omega) f2
      obtain ⟨_, _, c3⟩ := fgs_wsub_xy hx hy (by omega) (by omega) f3
      refine ⟨3, by omega, hk3, hl3, by simp only [W] at *; omega,
        by simp only [H] at *; omega, ?_⟩
      unfold diagUpLine
      have e1 : x - 3 + 1 = x - 2 := by omega
      have e2 : x - 3 + 2 = x - 1 := by omega
      have e3 : x - 3 + 3 = x := by omega
      rw [e1, e2, e3]
      have i1 : (x - 2) * H + (y - 3) + 1 = (x - 2) * H + (y - 2) := by omega
      have i2 : (x - 1) * H + (y - 3) + 2 = (x - 1) * H + (y - 1) := by omega
      have i3 : x * H + (y - 3) + 3 = x * H + y := by omega
      rw [i1, i2, i3]
      exact ⟨c1, c2, c3, hanchor⟩
    · obtain ⟨hk2, hl2, c1⟩ := fgs_wsub_xy hx hy (by omega) (by omega) f1
      obtain ⟨_, _, c2⟩ := fgs_wsub_xy hx hy (by omega) (by omega) f2
      obtain ⟨hbx, hby, c3⟩ := fgs_wadd_xy hx hy (by omega) f3
      refine ⟨2, by omega, hk2, hl2, by simp only [W] at *; omega,
        by simp only [H] at *; omega, ?_⟩
      unfold diagUpLine
      have e1 : x - 2 + 1 = x - 1 := by omega
      have e2 : x - 2 + 2 = x := by omega
      have e3 : x - 2 + 3 = x + 1 := by omega
      rw [e1, e2, e3]
      have i1 : (x - 1) * H + (y - 2) + 1 = (x - 1) * H + (y - 1) := by omega
      have i2 : x * H + (y - 2) + 2 = x * H + y := by omega
      have i3 : (x + 1) * H + (y - 2) + 3 = (x + 1) * H + (y + 1) := by omega
      rw [i1, i2, i3]
      exact ⟨c1, c2, hanchor, c3⟩
    · obtain ⟨hk1, hl1, c1⟩ := fgs_wsub_xy hx hy (by omega) (by omega) f1
      obtain ⟨_, _, c2⟩ := fgs_wadd_xy hx hy (by omega) f2
      obtain ⟨hbx, hby, c3⟩ := fgs_wadd_xy hx hy (by omega) f3
      refine ⟨1, by omega, hk1, hl1, by simp only [W] at *; omega,
        by simp only [H] at *; omega, ?_⟩
      unfold diagUpLine
      have e1 : x - 1 + 1 = x := by omega
      have e2 : x - 1 + 2 = x + 1 := by omega
      have e3 : x - 1 + 3 = x + 2 := by omega
      rw [e1, e2, e3]
      have i1 : x * H + (y - 1) + 1 = x * H + y := by omega
      have i2 : (x + 1) * H + (y - 1) + 2 = (x + 1) * H + (y + 1) := by omega
      have i3 : (x + 2) * H + (y - 1) + 3 = (x + 2) * H + (y + 2) := by omega
      rw [i1, i2, i3]
      exact ⟨c1, hanchor, c2, c3⟩
    · obtain ⟨_, _, c1⟩ := fgs_wadd_xy hx hy (by omega) f1
      obtain ⟨_, _, c2⟩ := fgs_wadd_xy hx hy (by omega) f2
      obtain ⟨hbx, hby, c3⟩ := fgs_wadd_xy hx hy (by omega) f3
      refine ⟨0, by omega, by omega, by omega, by simp only [W] at *; omega,
        by simp only [H] at *; omega, ?_⟩
      unfold diagUpLine
      have e0 : x - 0 = x := by omega
      rw [e0]
      have i0 : x * H + (y - 0) = x * H + y := by omega
      have i1 : (x + 1) * H + (y - 0) + 1 = (x + 1) * H + (y + 1) := by omega
      have i2 : (x + 2) * H + (y - 0) + 2 = (x + 2) * H + (y + 2) := by omega
      have i3 : (x + 3) * H + (y - 0) + 3 = (x + 3) * H + (y + 3) := by omega
      rw [i0, i1, i2, i3]
      exact ⟨hanchor, c1, c2, c3⟩
  · rintro ⟨j, hj3, hjx, hjy, hbx, hby, hline⟩
    obtain ⟨c1, c2, c3, c4⟩ := hline
    interval_cases j
    · have i0 : x - 0 = x := by omega
      rw [i0] at c1 c2 c3 c4
      have j1 : x * H + (y - 0) = x * H + y := by omega
      have j2 : (x + 1) * H + (y - 0) + 1 = (x + 1) * H + (y + 1) := by omega
      have j3 : (x + 2) * H + (y - 0) + 2 = (x + 2) * H + (y + 2) := by omega
      have j4 : (x + 3) * H + (y - 0) + 3 = (x + 3) * H + (y + 3) := by omega
      rw [j2] at c2
      rw [j3] at c3
      rw [j4] at c4
      refine Or.inr (Or.inr (Or.inr ⟨?_, ?_, ?_⟩))
      · rw [wadd_eval hx7 (by omega), wadd_eval hy7 (by omega)]
        exact fgs_intro (by simp only [W] at *; omega)
          (by simp only [H] at *; omega) c2
      · rw [wadd_eval hx7 (by omega), wadd_eval hy7 (by omega)]
        exact fgs_intro (by simp only [W] at *; omega)
          (by simp only [H] at *; omega) c3
      · rw [wadd_eval hx7 (by omega), wadd_eval hy7 (by omega)]
        exact fgs_intro (by simp only [W] at *; omega)
          (by simp only [H] at *; omega) c4
    · have e2 : x - 1 + 1 = x := by omega
      have e3 : x - 1 + 2 = x + 1 := by omega
      have e4 : x - 1 + 3 = x + 2 := by omega
      rw [e2] at c2
      rw [e3] at c3
      rw [e4] at c4
      have j3 : (x + 1) * H + (y - 1) + 2 = (x + 1) * H + (y + 1) := by omega
      have j4 : (x + 2) * H + (y - 1) + 3 = (x + 2) * H + (y + 2) := by omega
      rw [j3] at c3
      rw [j4] at c4
      refine Or.inr (Or.inr (Or.inl ⟨?_, ?_, ?_⟩))
      · rw [wsub_eval hx7 (by omega), wsub_eval hy7 (by omega)]
        exact fgs_intro (by simp only [W] at *; omega)
          (by simp only [H] at *; omega) c1
      · rw [wadd_eval hx7 (by omega), wadd_eval hy7 (by omega)]
        exact fgs_intro (by simp only [W] at *; omega)
          (by simp only [H] at *; omega) c3
      · rw [wadd_eval hx7 (by omega), wadd_eval hy7 (by omega)]
        exact fgs_intro (by simp only [W] at *; omega)
          (by simp only [H] at *; omega) c4
    · have e2 : x - 2 + 1 = x - 1 := by omega
      have e4 : x - 2 + 3 = x + 1 := by omega
      rw [e2] at c2
      rw [e4] at c4
      have j2 : (x - 1) * H + (y - 2) + 1 = (x - 1) * H + (y - 1) := by omega
      have j4 : (x + 1) * H + (y - 2) + 3 = (x + 1) * H + (y + 1) := by omega
      rw [j2] at c2
      rw [j4] at c4
      refine Or.inr (Or.inl ⟨?_, ?_, ?_⟩)
      · rw [wsub_eval hx7 (by omega), wsub_eval hy7 (by omega)]
        exact fgs_intro (by simp only [W] at *; omega)
          (by simp only [H] at *; omega) c1
      · rw [wsub_eval hx7 (by omega), wsub_eval hy7 (by omega)]
        exact fgs_intro (by simp only [W] at *; omega)
          (by simp only [H] at *; omega) c2
      · rw [wadd_eval hx7 (by omega), wadd_eval hy7 (by omega)]
        exact fgs_intro (by simp only [W] at *; omega)
          (by simp only [H] at *; omega) c4
    · have e2 : x - 3 + 1 = x - 2 := by omega
      have e3 : x - 3 + 2 = x - 1 := by omega
      rw [e2] at c2
      rw [e3] at c3
      have j2 : (x - 2) * H + (y - 3) + 1 = (x - 2) * H + (y - 2) := by omega
      have j3 : (x - 1) * H + (y - 3) + 2 = (x - 1) * H + (y - 1) := by omega
      rw [j2] at c2
      rw [j3] at c3
      refine Or.inl ⟨?_, ?_, ?_⟩
      · rw [wsub_eval hx7 (by omega), wsub_eval hy7 (by omega)]
        exact fgs_intro (by simp only [W] at *; omega)
          (by simp only [H] at *; omega) c1
      · rw [wsub_eval hx7 (by omega), wsub_eval hy7 (by omega)]
        exact fgs_intro (by simp only [W] at *; omega)
          (by simp only [H] at *; omega) c2
      · rw [wsub_eval hx7 (by omega), wsub_eval hy7 (by omega)]
        exact fgs_intro (by simp only [W] at *; omega)
          (by simp only [H] at *; omega) c3

/-- In the updated board, an ascending diagonal line must pass through the
written cell. -/
theorem hasDiagUp_through {b b' : Board} {c y0 : Nat} {t u : Team}
    (hfield : b'.field = b.field.set (c * H + y0) (some t))
    (hc : c < W) (hy0 : y0 < H)
    (hanchor : fget b' (c * H + y0) = some t)
    (hnob : ¬ hasDiagUp b u)
    (hw : hasDiagUp b' u) :
    u = t ∧ ∃ j, j ≤ 3 ∧ j ≤ c ∧ j ≤ y0 ∧ c - j < W - 3 ∧ y0 - j < H - 3 ∧
      diagUpLine b' (c - j) (y0 - j) u := by
  obtain ⟨x0, y1, hx0, hy1, hline⟩ := hw
  obtain ⟨c1, c2, c3, c4⟩ := hline
  by_cases hthrough : x0 ≤ c ∧ c ≤ x0 + 3 ∧ y0 = y1 + (c - x0)
  · obtain ⟨hcl, hcr, hyy⟩ := hthrough
    have hj : c - x0 = 0 ∨ c - x0 = 1 ∨ c - x0 = 2 ∨ c - x0 = 3 := by omega
    have hut : u = t := by
      rcases hj with hj | hj | hj | hj
      · have ec : c = x0 := by omega
        have ey : y0 = y1 := by omega
        rw [ec, ey] at hanchor
        rw [hanchor] at c1
        injection c1 with h5
        exact h5.symm
      · have ec : c = x0 + 1 := by omega
        have ey : y0 = y1 + 1 := by omega
        rw [ec, ey] at hanchor
        have i : (x0 + 1) * H + (y1 + 1) = (x0 + 1) * H + y1 + 1 := by omega
        rw [i] at hanchor
        rw [hanchor] at c2
        injection c2 with h5
        exact h5.symm
      · have ec : c = x0 + 2 := by omega
        have ey : y0 = y1 + 2 := by omega
        rw [ec, ey] at hanchor
        have i : (x0 + 2) * H + (y1 + 2) = (x0 + 2) * H + y1 + 2 := by omega
        rw [i] at hanchor
        rw [hanchor] at c3
        injection c3 with h5
        exact h5.symm
      · have ec : c = x0 + 3 := by omega
        have ey : y0 = y1 + 3 := by omega
        rw [ec, ey] at hanchor
        have i : (x0 + 3) * H + (y1 + 3) = (x0 + 3) * H + y1 + 3 := by omega
        rw [i] at hanchor
        rw [hanchor] at c4
        injection c4 with h5
        exact h5.symm
    refine ⟨hut, c - x0, by omega, by omega, by omega, by omega, by omega, ?_⟩
    have ex : c - (c - x0) = x0 := by omega
    have ey : y0 - (c - x0) = y1 := by omega
    rw [ex, ey]
    exact ⟨c1, c2, c3, c4⟩
  · exfalso
    apply hnob
    have hne : ∀ k, k ≤ 3 → (x0 + k) * H + y1 + k ≠ c * H + y0 := by
      intro k hk heq
      have e : (x0 + k) * H + y1 + k = (x0 + k) * H + (y1 + k) := by omega
      rw [e] at heq
      obtain ⟨hh1, hh2⟩ := index_inj (by simp only [H] at *; omega) hy0 heq
      exact hthrough ⟨by omega, by omega, by omega⟩
    refine ⟨x0, y1, hx0, hy1, ?_, ?_, ?_, ?_⟩
    · rw [← fget_update_other hfield (by
        have := hne 0 (by omega)
        intro heq
        apply this
        have e : (x0 + 0) * H + y1 + 0 = x0 * H + y1 := by
          have e2 : x0 + 0 = x0 := by omega
          rw [e2]
          omega
        rw [e]
        exact heq)]
      exact c1
    · rw [← fget_update_other hfield (hne 1 (by omega))]
      exact c2
    · rw [← fget_update_other hfield (hne 2 (by omega))]
      exact c3
    · rw [← fget_update_other hfield (hne 3 (by omega))]
      exact c4

/-! ### Lines through the anchor: descending diagonal -/

/-- At an occupied anchor, the incremental descending-diagonal condition is
exactly a descending diagonal line through the anchor. -/
theorem diagDownWin_iff {b : Board} {x y : Nat} {t : Team} (hx : x < W)
    (hy : y < H) (hanchor : fget b (x * H + y) = some t) :
    diagDownWin b x y t ↔
      ∃ j, j ≤ 3 ∧ j ≤ y ∧ x + j < W ∧ 3 ≤ x + j ∧ y - j < H - 3 ∧
        diagDownLine b (x + j) (y - j) t := by
  have hx7 : x < 7 := by simp only [W] at hx; exact hx
  have hy7 : y < 7 := by simp only [H] at hy; omega
  unfold diagDownWin
  constructor
  · rintro (⟨f1, f2, f3⟩ | ⟨f1, f2, f3⟩ | ⟨f1, f2, f3⟩ | ⟨f1, f2, f3⟩)
    · obtain ⟨hk3, hb3, c1⟩ := fgs_wsub_x_wadd_y hx hy (by omega) (by omega) f1
      obtain ⟨_, _, c2⟩ := fgs_wsub_x_wadd_y hx hy (by omega) (by omega) f2
      obtain ⟨_, _, c3⟩ := fgs_wsub_x_wadd_y hx hy (by omega) (by omega) f3
      refine ⟨0, by omega, by omega, by omega, by omega,
        by simp only [H] at *; omega, ?_⟩
      unfold diagDownLine
      have e0 : x + 0 = x := by omega
      rw [e0]
      have i0 : x * H + (y - 0) = x * H + y := by omega
      have i1 : (x - 1) * H + (y - 0) + 1 = (x - 1) * H + (y + 1) := by omega
      have i2 : (x - 2) * H + (y - 0) + 2 = (x - 2) * H + (y + 2) := by omega
      have i3 : (x - 3) * H + (y - 0) + 3 = (x - 3) * H + (y + 3) := by omega
      rw [i0, i1, i2, i3]
      exact ⟨hanchor, c3, c2, c1⟩
    · obtain ⟨hk2, hb2, c1⟩ := fgs_wsub_x_wadd_y hx hy (by omega) (by omega) f1
      obtain ⟨_, _, c2⟩ := fgs_wsub_x_wadd_y hx hy (by omega) (by omega) f2
      obtain ⟨hbx, hby, c3⟩ := fgs_wadd_x_wsub_y hx hy (by omega) (by omega) f3
      refine ⟨1, by omega, hby, hbx, by omega, by simp only [H] at *; omega, ?_⟩
      unfold diagDownLine
      have e1 : x + 1 - 1 = x := by omega
      have e2 : x + 1 - 2 = x - 1 := by omega
      have e3 : x + 1 - 3 = x - 2 := by omega
      rw [e1, e2, e3]
      have i1 : x * H + (y - 1) + 1 = x * H + y := by omega
      have i2 : (x - 1) * H + (y - 1) + 2 = (x - 1) * H + (y + 1) := by omega
      have i3 : (x - 2) * H + (y - 1) + 3 = (x - 2) * H + (y + 2) := by omega
      rw [i1, i2, i3]
      exact ⟨c3, hanchor, c2, c1⟩
    · obtain ⟨hk1, hb1, c1⟩ := fgs_wsub_x_wadd_y hx hy (by omega) (by omega) f1
      obtain ⟨_, _, c2⟩ := fgs_wadd_x_wsub_y hx hy (by omega) (by omega) f2
      obtain ⟨hbx, hby, c3⟩ := fgs_wadd_x_wsub_y hx hy (by omega) (by omega) f3
      refine ⟨2, by omega, hby, hbx, by omega, by simp only [H] at *; omega, ?_⟩
      unfold diagDownLine
      have e1 : x + 2 - 1 = x + 1 := by omega
      have e2 : x + 2 - 2 = x := by omega
      have e3 : x + 2 - 3 = x - 1 := by omega
      rw [e1, e2, e3]
      have i1 : (x + 1) * H + (y - 2) + 1 = (x + 1) * H + (y - 1) := by omega
      have i2 : x * H + (y - 2) + 2 = x * H + y := by omega
      have i3 : (x - 1) * H + (y - 2) + 3 = (x - 1) * H + (y + 1) := by omega
      rw [i1, i2, i3]
      exact ⟨c3, c2, hanchor, c1⟩
    · obtain ⟨_, hk1, c1⟩ := fgs_wadd_x_wsub_y hx hy (by omega) (by omega) f1
      obtain ⟨_, _, c2⟩ := fgs_wadd_x_wsub_y hx hy (by omega) (by omega) f2
      obtain ⟨hbx, hby, c3⟩ := fgs_wadd_x_wsub_y hx hy (by omega) (by omega) f3
      refine ⟨3, by omega, hby, hbx, by omega, by simp only [H] at *; omega, ?_⟩
      unfold diagDownLine
      have e1 : x + 3 - 1 = x + 2 := by omega
      have e2 : x + 3 - 2 = x + 1 := by omega
      have e3 : x + 3 - 3 = x := by omega
      rw [e1, e2, e3]
      have i1 : (x + 2) * H + (y - 3) + 1 = (x + 2) * H + (y - 2) := by omega
      have i2 : (x + 1) * H + (y - 3) + 2 = (x + 1) * H + (y - 1) := by omega
      have i3 : x * H + (y - 3) + 3 = x * H + y := by omega
      rw [i1, i2, i3]
      exact ⟨c3, c2, c1, hanchor⟩
  · rintro ⟨j, hj3, hjy, hbW, hb3, hbH, hline⟩
    obtain ⟨c1, c2, c3, c4⟩ := hline
    interval_cases j
    · have e0 : x + 0 = x := by omega
      rw [e0] at c1 c2 c3 c4
      have j2 : (x - 1) * H + (y - 0) + 1 = (x - 1) * H + (y + 1) := by omega
      have j3 : (x - 2) * H + (y - 0) + 2 = (x - 2) * H + (y + 2) := by omega
      have j4 : (x - 3) * H + (y - 0) + 3 = (x - 3) * H + (y + 3) := by omega
      rw [j2] at c2
      rw [j3] at c3
      rw [j4] at c4
      refine Or.inl ⟨?_, ?_, ?_⟩
      · rw [wsub_eval hx7 (by omega), wadd_eval hy7 (by omega)]
        exact fgs_intro (by simp only [W] at *; omega)
          (by simp only [H] at *; omega) c4
      · rw [wsub_eval hx7 (by omega), wadd_eval hy7 (by omega)]
        exact fgs_intro (by simp only [W] at *; omega)
          (by simp only [H] at *; omega) c3
      · rw [wsub_eval hx7 (by omega), wadd_eval hy7 (by omega)]
        exact fgs_intro (by simp only [W] at *; omega)
          (by simp only [H] at *; omega) c2
    · have e1 : x + 1 - 1 = x := by omega
      have e2 : x + 1 - 2 = x - 1 := by omega
      have e3 : x + 1 - 3 = x - 2 := by omega
      rw [e1] at c2
      rw [e2] at c3
      rw [e3] at c4
      have j3 : (x - 1) * H + (y - 1) + 2 = (x - 1) * H + (y + 1) := by omega
      have j4 : (x - 2) * H + (y - 1) + 3 = (x - 2) * H + (y + 2) := by omega
      rw [j3] at c3
      rw [j4] at c4
      refine Or.inr (Or.inl ⟨?_, ?_, ?_⟩)
      · rw [wsub_eval hx7 (by omega), wadd_eval hy7 (by omega)]
        exact fgs_intro (by simp only [W] at *; omega)
          (by simp only [H] at *; omega) c4
      · rw [wsub_eval hx7 (by omega), wadd_eval hy7 (by omega)]
        exact fgs_intro (by simp only [W] at *; omega)
          (by simp only [H] at *; omega) c3
      · rw [wadd_eval hx7 (by omega), wsub_eval hy7 (by omega)]
        exact fgs_intro (by simp only [W] at *; omega)
          (by simp only [H] at *; omega) c1
    · have e1 : x + 2 - 1 = x + 1 := by omega
      have e2 : x + 2 - 2 = x := by omega
      have e3 : x + 2 - 3 = x - 1 := by omega
      rw [e1] at c2
      rw [e2] at c3
      rw [e3] at c4
      have j2 : (x + 1) * H + (y - 2) + 1 = (x + 1) * H + (y - 1) := by omega
      have j4 : (x - 1) * H + (y - 2) + 3 = (x - 1) * H + (y + 1) := by omega
      rw [j2] at c2
      rw [j4] at c4
      refine Or.inr (Or.inr (Or.inl ⟨?_, ?_, ?_⟩))
      · rw [wsub_eval hx7 (by omega), wadd_eval hy7 (by omega)]
        exact fgs_intro (by simp only [W] at *; omega)
          (by simp only [H] at *; omega) c4
      · rw [wadd_eval hx7 (by omega), wsub_eval hy7 (by omega)]
        exact fgs_intro (by simp only [W] at *; omega)
          (by simp only [H] at *; omega) c2
      · rw [wadd_eval hx7 (by omega), wsub_eval hy7 (by omega)]
        exact fgs_intro (by simp only [W] at *; omega)
          (by simp only [H] at *; omega) c1
    · have e1 : x + 3 - 1 = x + 2 := by omega
      have e2 : x + 3 - 2 = x + 1 := by omega
      have e3 : x + 3 - 3 = x := by omega
      rw [e1] at c2
      rw [e2] at c3
      rw [e3] at c4
      have j2 : (x + 2) * H + (y - 3) + 1 = (x + 2) * H + (y - 2) := by omega
      have j3 : (x + 1) * H + (y - 3) + 2 = (x + 1) * H + (y - 1) := by omega
      rw [j2] at c2
      rw [j3] at c3
      refine Or.inr (Or.inr (Or.inr ⟨?_, ?_, ?_⟩))
      · rw [wadd_eval hx7 (by omega), wsub_eval hy7 (by omega)]
        exact fgs_intro (by simp only [W] at *; omega)
          (by simp only [H] at *; omega) c3
      · rw [wadd_eval hx7 (by omega), wsub_eval hy7 (by omega)]
        exact fgs_intro (by simp only [W] at *; omega)
          (by simp only [H] at *; omega) c2
      · rw [wadd_eval hx7 (by omega), wsub_eval hy7 (by omega)]
        exact fgs_intro (by simp only [W] at *; omega)
          (by simp only [H] at *; omega) c1

/-- In the updated board, a descending diagonal line must pass through the
written cell. -/
theorem hasDiagDown_through {b b' : Board} {c y0 : Nat} {t u : Team}
    (hfield : b'.field = b.field.set (c * H + y0) (some t))
    (hc : c < W) (hy0 : y0 < H)
    (hanchor : fget b' (c * H + y0) = some t)
    (hnob : ¬ hasDiagDown b u)
    (hw : hasDiagDown b' u) :
    u = t ∧ ∃ j, j ≤ 3 ∧ j ≤ y0 ∧ c + j < W ∧ 3 ≤ c + j ∧ y0 - j < H - 3 ∧
      diagDownLine b' (c + j) (y0 - j) u := by
  obtain ⟨x0, y1, hx03, hx0, hy1, hline⟩ := hw
  obtain ⟨c1, c2, c3, c4⟩ := hline
  by_cases hthrough : x0 - 3 ≤ c ∧ c ≤ x0 ∧ y0 = y1 + (x0 - c)
  · obtain ⟨hcl, hcr, hyy⟩ := hthrough
    have hj : x0 - c = 0 ∨ x0 - c = 1 ∨ x0 - c = 2 ∨ x0 - c = 3 := by omega
    have hut : u = t := by
      rcases hj with hj | hj | hj | hj
      · have ec : c = x0 := by omega
        have ey : y0 = y1 := by omega
        rw [ec, ey] at hanchor
        rw [hanchor] at c1
        injection c1 with h5
        exact h5.symm
      · have ec : c = x0 - 1 := by omega
        have ey : y0 = y1 + 1 := by omega
        rw [ec, ey] at hanchor
        have i : (x0 - 1) * H + (y1 + 1) = (x0 - 1) * H + y1 + 1 := by omega
        rw [i] at hanchor
        rw [hanchor] at c2
        injection c2 with h5
        exact h5.symm
      · have ec : c = x0 - 2 := by omega
        have ey : y0 = y1 + 2 := by omega
        rw [ec, ey] at hanchor
        have i : (x0 - 2) * H + (y1 + 2) = (x0 - 2) * H + y1 + 2 := by omega
        rw [i] at hanchor
        rw [hanchor] at c3
        injection c3 with h5
        exact h5.symm
      · have ec : c = x0 - 3 := by omega
        have ey : y0 = y1 + 3 := by omega
        rw [ec, ey] at hanchor
        have i : (x0 - 3) * H + (y1 + 3) = (x0 - 3) * H + y1 + 3 := by omega
        rw [i] at hanchor
        rw [hanchor] at c4
        injection c4 with h5
        exact h5.symm
    refine ⟨hut, x0 - c, by omega, by omega, by omega, by omega, by omega, ?_⟩
    have ex : c + (x0 - c) = x0 := by omega
    have ey : y0 - (x0 - c) = y1 := by omega
    rw [ex, ey]
    exact ⟨c1, c2, c3, c4⟩
  · exfalso
    apply hnob
    have hne : ∀ k, k ≤ 3 → (x0 - k) * H + y1 + k ≠ c * H + y0 := by
      intro k hk heq
      have e : (x0 - k) * H + y1 + k = (x0 - k) * H + (y1 + k) := by omega
      rw [e] at heq
      obtain ⟨hh1, hh2⟩ := index_inj (by simp only [H] at *; omega) hy0 heq
      exact hthrough ⟨by omega, by omega, by omega⟩
    refine ⟨x0, y1, hx03, hx0, hy1, ?_, ?_, ?_, ?_⟩
    · rw [← fget_update_other hfield (by
        have := hne 0 (by omega)
        intro heq
        apply this
        have e : (x0 - 0) * H + y1 + 0 = x0 * H + y1 := by
          have e2 : x0 - 0 = x0 := by omega
          rw [e2]
          omega
        rw [e]
        exact heq)]
      exact c1
    · rw [← fget_update_other hfield (hne 1 (by omega))]
      exact c2
    · rw [← fget_update_other hfield (hne 2 (by omega))]
      exact c3
    · rw [← fget_update_other hfield (hne 3 (by omega))]
      exact c4

/-! ### The full-vs-incremental equivalence -/

/-- After a legal move on a gravity-respecting board with no prior result,
the incremental check agrees exactly with the full scan. -/
theorem on_change_after_put {b : Board} {c : Nat} {t : Team}
    (hg : Gravity b) (hres : game_result b = none)
    (hok : (put_tile b c t).1 = .ok ()) :
    game_result_on_change (put_tile b c t).2 c =
      .ok (game_result (put_tile b c t).2) := by
  obtain ⟨hc, y0, hy0, hempty, hbelow, hfield⟩ := put_tile_ok_elim hok
  set b' := (put_tile b c t).2 with hb'
  have hnowin : ∀ u, ¬ HasWin b u :=
    winScan_none_iff.mp (winScan_none_of_result_none hres)
  have hnoV : ∀ u, ¬ hasVert b u := fun u hw => hnowin u (Or.inl hw)
  have hnoH : ∀ u, ¬ hasHorz b u := fun u hw => hnowin u (Or.inr (Or.inl hw))
  have hnoDU : ∀ u, ¬ hasDiagUp b u :=
    fun u hw => hnowin u (Or.inr (Or.inr (Or.inl hw)))
  have hnoDD : ∀ u, ¬ hasDiagDown b u :=
    fun u hw => hnowin u (Or.inr (Or.inr (Or.inr hw)))
  have hanchor : fget b' (c * H + y0) = some t :=
    fget_update_self hfield (idx_lt hc hy0)
  have habove : ∀ y', y0 < y' → y' < H → fget b' (c * H + y') = none := by
    intro y' hgt hlt
    have hbn : fget b (c * H + y') = none :=
      gravity_above_empty hg hc hempty y' (by omega) hlt
    have hne : c * H + y' ≠ c * H + y0 := by
      intro heq
      obtain ⟨_, he⟩ := index_inj hlt hy0 heq
      omega
    rw [fget_update_other hfield hne]
    exact hbn
  have hscan : scanLoop b' c H (H - 1) = .ok y0 := by
    apply scanLoop_finds hc H (H - 1) y0 (by simp only [H]; omega)
      (by simp only [H] at *; omega) (by simp only [H] at *; omega)
      (fun y' hgt hle => habove y' hgt (by simp only [H] at *; omega))
    rw [hanchor]
    rfl
  have hfgs : field_get_safe b' c y0 = some t := fgs_intro hc hy0 hanchor
  have huniq : ∀ v, HasWin b' v → v = t := by
    intro v hv
    rcases hv with hw | hw | hw | hw
    · exact (hasVert_through hfield hc hy0 hanchor (hnoV v) habove hw).1
    · exact (hasHorz_through hfield hc hy0 hanchor (hnoH v) hw).1
    · exact (hasDiagUp_through hfield hc hy0 hanchor (hnoDU v) hw).1
    · exact (hasDiagDown_through hfield hc hy0 hanchor (hnoDD v) hw).1
  by_cases hwin : ∃ u, HasWin b' u
  · obtain ⟨u, hu⟩ := hwin
    have hut := huniq u hu
    rw [hut] at hu
    have hcond : xDirWin b' c y0 t ∨ yDirWin b' c y0 t ∨
        diagUpWin b' c y0 t ∨ diagDownWin b' c y0 t := by
      rcases hu with hw | hw | hw | hw
      · obtain ⟨_, h3y, hline⟩ :=
          hasVert_through hfield hc hy0 hanchor (hnoV t) habove hw
        exact Or.inr (Or.inl ((yDirWin_iff hc hy0 hanchor).mpr ⟨h3y, hline⟩))
      · obtain ⟨_, hthru⟩ :=
          hasHorz_through hfield hc hy0 hanchor (hnoH t) hw
        exact Or.inl ((xDirWin_iff hc hy0 hanchor).mpr hthru)
      · obtain ⟨_, hthru⟩ :=
          hasDiagUp_through hfield hc hy0 hanchor (hnoDU t) hw
        exact Or.inr (Or.inr (Or.inl ((diagUpWin_iff hc hy0 hanchor).mpr hthru)))
      · obtain ⟨_, hthru⟩ :=
          hasDiagDown_through hfield hc hy0 hanchor (hnoDD t) hw
        exact Or.inr (Or.inr (Or.inr ((diagDownWin_iff hc hy0 hanchor).mpr hthru)))
    have hgr : game_result b' = some (GameResult.Winner t) := by
      cases hws : winScan b' with
      | none => exact absurd hu (winScan_none_iff.mp hws t)
      | some v =>
          have hv := huniq v (winScan_some_elim hws)
          rw [game_result_of_winScan_some hws, hv]
    rw [on_change_winner_of_cond hscan hfgs hcond, hgr]
  · push_neg at hwin
    have h1 : ¬ xDirWin b' c y0 t := by
      intro hcond
      obtain ⟨j, hj3, hjc, hbound, hline⟩ := (xDirWin_iff hc hy0 hanchor).mp hcond
      exact hwin t (Or.inr (Or.inl ⟨c - j, y0, hbound, hy0, hline⟩))
    have h2 : ¬ yDirWin b' c y0 t := by
      intro hcond
      obtain ⟨h3y, hline⟩ := (yDirWin_iff hc hy0 hanchor).mp hcond
      exact hwin t (Or.inl ⟨c, y0 - 3, hc, by simp only [H] at *; omega, hline⟩)
    have h3 : ¬ diagUpWin b' c y0 t := by
      intro hcond
      obtain ⟨j, hj3, hjc, hjy, hbx, hby, hline⟩ :=
        (diagUpWin_iff hc hy0 hanchor).mp hcond
      exact hwin t (Or.inr (Or.inr (Or.inl ⟨c - j, y0 - j, hbx, hby, hline⟩)))
    have h4 : ¬ diagDownWin b' c y0 t := by
      intro hcond
      obtain ⟨j, hj3, hjy, hbW, hb3, hbH, hline⟩ :=
        (diagDownWin_iff hc hy0 hanchor).mp hcond
      exact hwin t (Or.inr (Or.inr (Or.inr ⟨c + j, y0 - j, hb3, hbW, hbH, hline⟩)))
    have hws : winScan b' = none := by
      rw [winScan_none_iff]
      intro v hv
      exact hwin v hv
    rw [on_change_nowin hscan hfgs h1 h2 h3 h4, game_result_of_winScan_none hws]

/-- Boards reached from the empty board by successful `put_tile` calls where
the game result was still open before each call. -/
inductive ReachableInPlay : Board → Prop where
  | empty : ReachableInPlay emptyBoard
  | step {b : Board} {c : Nat} {t : Team} :
      ReachableInPlay b → game_result b = none → (put_tile b c t).1 = .ok () →
      ReachableInPlay (put_tile b c t).2

theorem reachable_of_inplay {b : Board} (h : ReachableInPlay b) : Reachable b := by
  induction h with
  | empty => exact Reachable.empty
  | step _ _ hok ih => exact Reachable.step ih hok

/-- C1: for every board reached from the empty board by successful
`put_tile` calls in which no earlier call already produced a game result,
calling `game_result_on_change(c)` immediately after a successful
`put_tile(c, _)` returns exactly the same value as the full
`game_result()` on the updated board. -/
theorem C1_full_incremental_equiv (b : Board) (c : Nat) (t : Team)
    (hreach : ReachableInPlay b) (hrun : game_result b = none)
    (hok : (put_tile b c t).1 = .ok ()) :
    game_result_on_change (put_tile b c t).2 c =
      .ok (game_result (put_tile b c t).2) :=
  on_change_after_put (gravity_of_reachable (reachable_of_inplay hreach))
    hrun hok

/-- Witness for C1: the first move of a game. -/
theorem C1_witness :
    game_result_on_change (put_tile emptyBoard 3 Team.X).2 3 =
      .ok (game_result (put_tile emptyBoard 3 Team.X).2) :=
  C1_full_incremental_equiv emptyBoard 3 Team.X ReachableInPlay.empty
    (by decide) (by decide)

/-! ### The `f64` model and `Board::heuristic_1` -/

/-- Model of the `f64` values arising in the players crate: one of the
sentinels `f64::MIN` / `f64::MAX`, or a finite value modelled as an exact
rational. The finite heuristic sums stay within ±400, far below the
sentinels, so the order of the model matches `f64`'s `partial_cmp` on every
comparison the code performs (and no NaN ever arises). The decimal literal
`0.333` is modelled as the exact rational `333/1000`. -/
inductive Fl : Type where
  | MIN : Fl
  | num : ℚ → Fl
  | MAX : Fl
deriving DecidableEq, Repr

/-- Strict order on modelled `f64` values (`partial_cmp == Less`). -/
def Fl.lt : Fl → Fl → Bool
  | .MIN, .MIN => false
  | .MIN, _ => true
  | .num _, .MIN => false
  | .num a, .num b => decide (a < b)
  | .num _, .MAX => true
  | .MAX, _ => false

/-- `partial_cmp == Greater`. -/
def Fl.gt (a b : Fl) : Bool := Fl.lt b a

/-- The displacement list of `heuristic_1`. -/
def displacements : List (Int × Int) :=
  [(1, 0), (1, 1), (0, 1), (-1, 1), (-1, 0), (-1, -1), (0, -1), (1, -1)]

/-- `i32::MIN`. -/
def I32_MIN : Int := -2147483648

/-- `i32::MAX`. -/
def I32_MAX : Int := 2147483647

/-- `i32::saturating_mul` (no saturation occurs for the tiny products of
`heuristic_1`, but modelled faithfully). -/
def satMul (a b : Int) : Int := max I32_MIN (min I32_MAX (a * b))

/-- `i32::saturating_add`. -/
def satAdd (a b : Int) : Int := max I32_MIN (min I32_MAX (a + b))

/-- `as usize` applied to an `i32` value: sign-extend and wrap into
`0..2^64`. A negative index becomes a huge number, so the subsequent
`slice::get` returns `None` — but small negative flat offsets computed from
in-range cells can also alias cells of neighboring columns, see C7. -/
def i32ToUsize (v : Int) : Nat := (v % (18446744073709551616 : Int)).toNat

/-- The neighbor loop of `heuristic_1` for the occupied cell `(x, y)` owned
by `team`: fold over the displacement list, reading each neighbor through
the flat-index arithmetic of the source
(`(x as i32 + dx).saturating_mul(H as i32).saturating_add(y as i32 + dy) as
usize`) and the checked `self.field.get(..)`. -/
def surrounding (b : Board) (x y : Nat) (team : Team) : ℚ :=
  displacements.foldl
    (fun s d =>
      match b.field[i32ToUsize (satAdd (satMul ((x : Int) + d.1) (H : Int))
          ((y : Int) + d.2))]? with
      | none => s
      | some none => s + 333 / 1000
      | some (some t) => if t = team then s + 1 else s - 1)
    0

/-- `Board::heuristic_1` with `f64` modelled by `Fl`. -/
def heuristic_1 (b : Board) (me : Team) : Fl :=
  match game_result b with
  | some GameResult.Draw => Fl.num 0
  | some (GameResult.Winner team) => if team = me then Fl.MAX else Fl.MIN
  | none =>
      Fl.num <|
        (List.range W).foldl (fun acc x =>
          (List.range H).foldl (fun acc y =>
            match fget b (x * H + y) with
            | none => acc
            | some team =>
                if team = me then acc + surrounding b x y team
                else acc - surrounding b x y team) acc) 0

/-! ### `MinimaxPlayer` (players/src/minimax.rs) -/

/-- `Iterator::max_by` over `f64` values: fold keeping the accumulator only
when it is strictly greater, so the last of several maxima wins. Returns
`none` on the empty iterator (where Rust's `.expect` panics). -/
def maxFold (l : List Fl) : Option Fl :=
  match l with
  | [] => none
  | v :: rest => some (rest.foldl (fun acc w => if Fl.gt acc w then acc else w) v)

/-- `Iterator::min_by` over `f64` values: fold replacing the accumulator
only when it is strictly greater, so the first of several minima wins. -/
def minFold (l : List Fl) : Option Fl :=
  match l with
  | [] => none
  | v :: rest => some (rest.foldl (fun acc w => if Fl.gt acc w then w else acc) v)

/-- `Iterator::max_by` on `(column, value)` pairs compared by value, as used
by `make_move`. -/
def maxBySnd (l : List (Nat × Fl)) : Option (Nat × Fl) :=
  match l with
  | [] => none
  | p :: rest =>
      some (rest.foldl (fun acc q => if Fl.gt acc.2 q.2 then acc else q) p)

mutual
/-- `MinimaxPlayer::max_value`. The two `Fl.num 0` fallbacks are the `expect`
panics of the source (`put_tile` on a possible move failing, and the
incremental check panicking); both are unreachable because possible moves
are in-range columns with a free top cell. The `maxFold ... = none` fallback
is the `expect("No possible moves")` panic. -/
def max_value (heuristic : Board → Team → Fl) (deepness : Nat) (b : Board)
    (me : Team) (cd : Nat) : Fl :=
  if h : cd + 1 < deepness then
    match maxFold ((possible_moves b).map (fun column =>
      match put_tile b column me with
      | (Except.error _, _) => Fl.num 0
      | (Except.ok _, tb) =>
          match game_result_on_change tb column with
          | .error _ => Fl.num 0
          | .ok (some GameResult.Draw) => Fl.num 0
          | .ok (some (GameResult.Winner team)) =>
              if team = me then Fl.MAX else Fl.MIN
          | .ok none => min_value heuristic deepness tb me (cd + 1))) with
    | some v => v
    | none => Fl.num 0
  else heuristic b me
termination_by deepness - cd
decreasing_by simp_wf; omega

/-- `MinimaxPlayer::min_value`, symmetric to `max_value` for the opponent's
replies. -/
def min_value (heuristic : Board → Team → Fl) (deepness : Nat) (b : Board)
    (me : Team) (cd : Nat) : Fl :=
  if h : cd + 1 < deepness then
    match minFold ((possible_moves b).map (fun column =>
      match put_tile b column me.other with
      | (Except.error _, _) => Fl.num 0
      | (Except.ok _, tb) =>
          match game_result_on_change tb column with
      | .error _ => Fl.num 0
      | .ok (some GameResult.Draw) => Fl.num 0
      | .ok (some (GameResult.Winner team)) =>
          if team = me then Fl.MAX else Fl.MIN
      | .ok none => max_value heuristic deepness tb me (cd + 1))) with
    | some v => v
    | none => Fl.num 0
  else heuristic b me
termination_by deepness - cd
decreasing_by simp_wf; omega
end

/-- The per-column value computed inside `make_move`'s map closure. The
`Fl.num 0` fallbacks are the source's panics, unreachable for columns from
`possible_moves`. -/
def moveValue (heuristic : Board → Team → Fl) (deepness : Nat) (b : Board)
    (me : Team) (column : Nat) : Fl :=
  match put_tile b column me with
  | (Except.error _, _) => Fl.num 0
  | (Except.ok _, tb) =>
      match game_result_on_change tb column with
      | .error _ => Fl.num 0
      | .ok (some GameResult.Draw) => Fl.num 0
      | .ok (some (GameResult.Winner team)) =>
          if team = me then Fl.MAX else Fl.MIN
      | .ok none => min_value heuristic deepness tb me 1

/-- `MinimaxPlayer::make_move`. The iteration order of the `HashSet`
returned by `possible_moves` is unspecified in Rust; the embedding takes the
order as the explicit parameter `order` (an enumeration of the set). The `0`
fallback is the `expect("No possible move")` panic on an empty move set. -/
def make_move (heuristic : Board → Team → Fl) (deepness : Nat) (b : Board)
    (me : Team) (order : List Nat) : Nat :=
  match maxBySnd (order.map
      (fun column => (column, moveValue heuristic deepness b me column))) with
  | some p => p.1
  | none => 0

/-! ### Order facts about the `f64` model -/

theorem fl_irrefl (a : Fl) : Fl.lt a a = false := by
  cases a <;> simp [Fl.lt]

theorem fl_asymm {a b : Fl} (h : Fl.lt a b = true) : Fl.lt b a = false := by
  cases a <;> cases b <;> simp_all [Fl.lt] <;> linarith

theorem fl_not_lt_trans {a b c : Fl} (h1 : Fl.lt a b = false)
    (h2 : Fl.lt b c = false) : Fl.lt a c = false := by
  cases a <;> cases b <;> cases c <;> simp_all [Fl.lt] <;> linarith

theorem fl_lt_of_lt_of_not_lt {a b c : Fl} (h1 : Fl.lt a b = true)
    (h2 : Fl.lt c b = false) : Fl.lt a c = true := by
  cases a <;> cases b <;> cases c <;> simp_all [Fl.lt] <;> linarith

theorem fl_eq_MAX_of_not_lt {v : Fl} (h : Fl.lt v Fl.MAX = false) : v = Fl.MAX := by
  cases v <;> simp_all [Fl.lt]

/-! ### The `max_by` fold: the last maximal element wins -/

/-- Decomposition of `Iterator::max_by`'s fold: the result splits the input
list into a prefix of elements not exceeding it and a suffix of strictly
smaller elements (so on ties the later element is returned). -/
theorem foldl_maxBy_decomp (l : List (Nat × Fl)) :
    ∀ p : Nat × Fl,
      ∃ l1 l2,
        p :: l =
          l1 ++ (l.foldl (fun acc q => if Fl.gt acc.2 q.2 then acc else q) p) :: l2 ∧
        (∀ v ∈ l1,
          Fl.lt (l.foldl (fun acc q => if Fl.gt acc.2 q.2 then acc else q) p).2 v.2
            = false) ∧
        (∀ v ∈ l2,
          Fl.lt v.2 (l.foldl (fun acc q => if Fl.gt acc.2 q.2 then acc else q) p).2
            = true) := by
  induction l using List.reverseRecOn with
  | nil =>
      intro p
      exact ⟨[], [], by simp, by simp, by simp⟩
  | append_singleton l x ih =>
      intro p
      obtain ⟨l1, l2, hdecomp, hbefore, hafter⟩ := ih p
      rw [List.foldl_append, List.foldl_cons, List.foldl_nil]
      by_cases hgt :
          Fl.gt (l.foldl (fun acc q => if Fl.gt acc.2 q.2 then acc else q) p).2 x.2
      · rw [if_pos hgt]
        refine ⟨l1, l2 ++ [x], ?_, hbefore, ?_⟩
        · rw [show p :: (l ++ [x]) = (p :: l) ++ [x] by simp, hdecomp]
          simp
        · intro v hv
          rcases List.mem_append.mp hv with hv | hv
          · exact hafter v hv
          · have hvx : v = x := by simpa using hv
            subst hvx
            exact hgt
      · rw [if_neg hgt]
        refine ⟨p :: l, [], by simp, ?_, by simp⟩
        intro v hv
        have hxr :
            Fl.lt x.2
              (l.foldl (fun acc q => if Fl.gt acc.2 q.2 then acc else q) p).2
              = false := by
          unfold Fl.gt at hgt
          exact Bool.of_not_eq_true hgt
        rw [hdecomp] at hv
        rcases List.mem_append.mp hv with hv | hv
        · exact fl_not_lt_trans hxr (hbefore v hv)
        · rcases List.mem_cons.mp hv with hv | hv
          · rw [hv]
            exact hxr
          · exact fl_asymm (fl_lt_of_lt_of_not_lt (hafter v hv) hxr)

/-- `max_by` on a nonempty list: its result, with the split showing the
last-maximal-element tie-break. -/
theorem maxBySnd_eq_some {l : List (Nat × Fl)} (h : l ≠ []) :
    ∃ q l1 l2, maxBySnd l = some q ∧ l = l1 ++ q :: l2 ∧
      (∀ v ∈ l1, Fl.lt q.2 v.2 = false) ∧ (∀ v ∈ l2, Fl.lt v.2 q.2 = true) := by
  cases l with
  | nil => exact absurd rfl h
  | cons p rest =>
      obtain ⟨l1, l2, hd, hb, ha⟩ := foldl_maxBy_decomp rest p
      exact ⟨_, l1, l2, rfl, hd, hb, ha⟩

/-- The `max_by` result is a maximum of the list. -/
theorem maxBySnd_is_max {l : List (Nat × Fl)} {q : Nat × Fl} {l1 l2 : List (Nat × Fl)}
    (hd : l = l1 ++ q :: l2)
    (hb : ∀ v ∈ l1, Fl.lt q.2 v.2 = false)
    (ha : ∀ v ∈ l2, Fl.lt v.2 q.2 = true) :
    ∀ v ∈ l, Fl.lt q.2 v.2 = false := by
  intro v hv
  rw [hd] at hv
  rcases List.mem_append.mp hv with hv | hv
  · exact hb v hv
  · rcases List.mem_cons.mp hv with hv | hv
    · rw [hv]
      exact fl_irrefl _
    · exact fl_asymm (ha v hv)

/-! ### Minimax helper lemmas -/

/-- `min_value` at the depth cutoff returns the heuristic value. -/
theorem min_value_leaf (heuristic : Board → Team → Fl) (deepness : Nat)
    (b : Board) (me : Team) (cd : Nat) (h : ¬ (cd + 1 < deepness)) :
    min_value heuristic deepness b me cd = heuristic b me := by
  rw [min_value]
  rw [dif_neg h]

/-- Membership in `possible_moves`. -/
theorem mem_possible_moves {b : Board} {col : Nat} :
    col ∈ possible_moves b ↔ col < W ∧ fget b (col * H + H - 1) = none := by
  unfold possible_moves
  rw [List.mem_filter, List.mem_range]
  simp [Option.isNone_iff_eq_none]

/-- `put_tile` succeeds on every possible move. -/
theorem put_ok_of_possible {b : Board} {col : Nat} (t : Team)
    (h : col ∈ possible_moves b) : (put_tile b col t).1 = .ok () := by
  obtain ⟨hcol, htop⟩ := mem_possible_moves.mp h
  apply put_tile_ok_of t hcol
  refine ⟨H - 1, by simp only [H]; omega, ?_⟩
  have e : col * H + (H - 1) = col * H + H - 1 := by simp only [H]; omega
  rw [e]
  exact htop

/-- Pair-eta form of a successful `put_tile`. -/
theorem pair_eta_ok {b : Board} {col : Nat} {t : Team}
    (hok : (put_tile b col t).1 = .ok ()) :
    put_tile b col t = (.ok (), (put_tile b col t).2) := by
  cases hput : put_tile b col t with
  | mk r tb =>
      rw [hput] at hok
      have hr : r = .ok () := hok
      rw [hr]

/-- Reduction of `moveValue` once `put_tile` is known to succeed. -/
theorem moveValue_eq_ok {heuristic : Board → Team → Fl} {deepness : Nat}
    {b : Board} {me : Team} {col : Nat} {tb : Board}
    (hput : put_tile b col me = (Except.ok (), tb)) :
    moveValue heuristic deepness b me col =
      match game_result_on_change tb col with
      | .error _ => Fl.num 0
      | .ok (some GameResult.Draw) => Fl.num 0
      | .ok (some (GameResult.Winner team)) =>
          if team = me then Fl.MAX else Fl.MIN
      | .ok none => min_value heuristic deepness tb me 1 := by
  unfold moveValue
  rw [hput]

/-- A column that immediately wins for the mover gets value `f64::MAX`. -/
theorem moveValue_win {heuristic : Board → Team → Fl} {deepness : Nat}
    {b : Board} {me : Team} {col : Nat}
    (hok : (put_tile b col me).1 = .ok ())
    (hwin : game_result_on_change (put_tile b col me).2 col =
      .ok (some (GameResult.Winner me))) :
    moveValue heuristic deepness b me col = Fl.MAX := by
  rw [moveValue_eq_ok (pair_eta_ok hok), hwin]
  simp

/-- With depth 1 and no immediate result, the column value is the heuristic
of the child position. -/
theorem moveValue_depth1_none {b : Board} {me : Team} {col : Nat}
    (hok : (put_tile b col me).1 = .ok ())
    (hnone : game_result_on_change (put_tile b col me).2 col = .ok none) :
    moveValue heuristic_1 1 b me col = heuristic_1 (put_tile b col me).2 me := by
  rw [moveValue_eq_ok (pair_eta_ok hok), hnone]
  show min_value heuristic_1 1 (put_tile b col me).2 me 1 = _
  exact min_value_leaf _ _ _ _ _ (by omega)

/-- A non-terminal board has a finite (non-sentinel) heuristic value. -/
theorem heuristic_1_num_of_none {b : Board} {me : Team}
    (h : game_result b = none) : ∃ q, heuristic_1 b me = Fl.num q := by
  unfold heuristic_1
  rw [h]
  exact ⟨_, rfl⟩

/-- At search depth 1, a column valued `f64::MAX` is an immediately winning
column (given a live, gravity-respecting position). -/
theorem moveValue_max_elim {b : Board} {me : Team} {col : Nat}
    (hg : Gravity b) (hres : game_result b = none)
    (hcol : col ∈ possible_moves b)
    (hmax : moveValue heuristic_1 1 b me col = Fl.MAX) :
    game_result_on_change (put_tile b col me).2 col =
      .ok (some (GameResult.Winner me)) := by
  have hok := put_ok_of_possible me hcol
  have heq := on_change_after_put hg hres hok
  rw [moveValue_eq_ok (pair_eta_ok hok), heq] at hmax
  cases hgr : game_result (put_tile b col me).2 with
  | none =>
      rw [hgr] at hmax
      simp only [] at hmax
      rw [min_value_leaf _ _ _ _ _ (by omega)] at hmax
      obtain ⟨q, hq⟩ := @heuristic_1_num_of_none (put_tile b col me).2 me hgr
      rw [hq] at hmax
      cases hmax
  | some gr =>
      rw [hgr] at hmax
      cases gr with
      | Draw => simp at hmax
      | Winner team =>
          by_cases hteam : team = me
          · rw [heq, hgr, hteam]
          · simp [hteam] at hmax

/-- C5: at search depth 1, whenever some possible column wins immediately
for the mover, `MinimaxPlayer::make_move` (with `heuristic_1`, on a live,
gravity-respecting position, for any iteration order of the move set)
returns a column whose placement yields an immediate win for the mover. -/
theorem C5_depth1_takes_win (b : Board) (me : Team) (order : List Nat)
    (hg : Gravity b) (hres : game_result b = none)
    (hperm : order.Perm (possible_moves b))
    (hwin : ∃ col ∈ possible_moves b,
      game_result_on_change (put_tile b col me).2 col =
        .ok (some (GameResult.Winner me))) :
    make_move heuristic_1 1 b me order ∈ possible_moves b ∧
    game_result_on_change
        (put_tile b (make_move heuristic_1 1 b me order) me).2
        (make_move heuristic_1 1 b me order) =
      .ok (some (GameResult.Winner me)) := by
  obtain ⟨w, hwmem, hwwin⟩ := hwin
  have hworder : w ∈ order := hperm.mem_iff.mpr hwmem
  have hlne :
      order.map (fun c => (c, moveValue heuristic_1 1 b me c)) ≠ [] := by
    intro hnil
    rw [List.map_eq_nil] at hnil
    rw [hnil] at hworder
    cases hworder
  obtain ⟨q, l1, l2, hmb, hdecomp, hbefore, hafter⟩ := maxBySnd_eq_some hlne
  have hqmax := maxBySnd_is_max hdecomp hbefore hafter
  have hwl : (w, Fl.MAX) ∈
      order.map (fun c => (c, moveValue heuristic_1 1 b me c)) := by
    apply List.mem_map.mpr
    exact ⟨w, hworder, by
      rw [moveValue_win (put_ok_of_possible me hwmem) hwwin]⟩
  have hq2 : q.2 = Fl.MAX := fl_eq_MAX_of_not_lt (hqmax (w, Fl.MAX) hwl)
  have hqmem : q ∈ order.map (fun c => (c, moveValue heuristic_1 1 b me c)) := by
    rw [hdecomp]
    simp
  obtain ⟨col, hcolmem, hcol_eq⟩ := List.mem_map.mp hqmem
  have hmm : make_move heuristic_1 1 b me order = col := by
    unfold make_move
    rw [hmb, ← hcol_eq]
  have hcolposs : col ∈ possible_moves b := hperm.mem_iff.mp hcolmem
  have hcolmax : moveValue heuristic_1 1 b me col = Fl.MAX := by
    have h2 : (col, moveValue heuristic_1 1 b me col).2 = q.2 := by rw [hcol_eq]
    rw [hq2] at h2
    exact h2
  rw [hmm]
  exact ⟨hcolposs, moveValue_max_elim hg hres hcolposs hcolmax⟩

/-- Witness for C5: X threatens a vertical four in column 0 and the search
takes it. -/
theorem C5_witness :
    make_move heuristic_1 1
        (applyMoves [(0, .X), (1, .O), (0, .X), (1, .O), (0, .X), (1, .O)])
        Team.X [0, 1, 2, 3, 4, 5, 6] ∈
      possible_moves
        (applyMoves [(0, .X), (1, .O), (0, .X), (1, .O), (0, .X), (1, .O)]) ∧
    game_result_on_change
        (put_tile (applyMoves [(0, .X), (1, .O), (0, .X), (1, .O), (0, .X),
          (1, .O)])
          (make_move heuristic_1 1
            (applyMoves [(0, .X), (1, .O), (0, .X), (1, .O), (0, .X), (1, .O)])
            Team.X [0, 1, 2, 3, 4, 5, 6]) Team.X).2
        (make_move heuristic_1 1
          (applyMoves [(0, .X), (1, .O), (0, .X), (1, .O), (0, .X), (1, .O)])
          Team.X [0, 1, 2, 3, 4, 5, 6]) =
      .ok (some (GameResult.Winner Team.X)) :=
  C5_depth1_takes_win _ Team.X _ (by decide) (by decide) (by decide)
    ⟨0, by decide, by decide⟩

/-- C6 (amended): `make_move` returns a possible column achieving the
maximum computed value, and among tied maxima the LAST one in the iteration
order of the move set is returned (Rust's `Iterator::max_by` keeps the later
element on ties), not the first-seen one. -/
theorem C6_make_move_last_max (heuristic : Board → Team → Fl) (deepness : Nat)
    (b : Board) (me : Team) (order : List Nat) (hne : order ≠ [])
    (hperm : order.Perm (possible_moves b)) :
    make_move heuristic deepness b me order ∈ possible_moves b ∧
    ∃ v l1 l2,
      order.map (fun c => (c, moveValue heuristic deepness b me c)) =
        l1 ++ (make_move heuristic deepness b me order, v) :: l2 ∧
      v = moveValue heuristic deepness b me
        (make_move heuristic deepness b me order) ∧
      (∀ q ∈ l1, Fl.lt v q.2 = false) ∧
      (∀ q ∈ l2, Fl.lt q.2 v = true) := by
  have hlne :
      order.map (fun c => (c, moveValue heuristic deepness b me c)) ≠ [] := by
    intro hnil
    rw [List.map_eq_nil] at hnil
    exact hne hnil
  obtain ⟨q, l1, l2, hmb, hdecomp, hbefore, hafter⟩ := maxBySnd_eq_some hlne
  have hqmem : q ∈ order.map (fun c => (c, moveValue heuristic deepness b me c)) := by
    rw [hdecomp]
    simp
  obtain ⟨col, hcolmem, hcol_eq⟩ := List.mem_map.mp hqmem
  have hmm : make_move heuristic deepness b me order = col := by
    unfold make_move
    rw [hmb, ← hcol_eq]
  have hq_eta : q = (col, moveValue heuristic deepness b me col) := hcol_eq.symm
  refine ⟨by rw [hmm]; exact hperm.mem_iff.mp hcolmem,
    moveValue heuristic deepness b me col, l1, l2, ?_, by rw [hmm], ?_, ?_⟩
  · rw [hdecomp, hq_eta, hmm]
  · intro v hv
    have := hbefore v hv
    rw [hq_eta] at this
    exact this
  · intro v hv
    have := hafter v hv
    rw [hq_eta] at this
    exact this

/-- C6 counterexample: X has two immediate vertical wins, in columns 0 and
2, on this position. With iteration order `[0, 1, 2, 3, 4, 5, 6]` both get
the maximal value `f64::MAX` and the first-seen maximal column is 0 — but
`make_move` returns 2 (the last one), because Rust's `Iterator::max_by`
keeps the later element on ties. -/
theorem C6_counterexample :
    make_move heuristic_1 1
        (applyMoves [(0, .X), (4, .O), (0, .X), (4, .O), (0, .X), (6, .O),
          (2, .X), (5, .O), (2, .X), (5, .O), (2, .X), (6, .O)])
        Team.X [0, 1, 2, 3, 4, 5, 6] = 2 ∧
    moveValue heuristic_1 1
        (applyMoves [(0, .X), (4, .O), (0, .X), (4, .O), (0, .X), (6, .O),
          (2, .X), (5, .O), (2, .X), (5, .O), (2, .X), (6, .O)])
        Team.X 0 =
      moveValue heuristic_1 1
        (applyMoves [(0, .X), (4, .O), (0, .X), (4, .O), (0, .X), (6, .O),
          (2, .X), (5, .O), (2, .X), (5, .O), (2, .X), (6, .O)])
        Team.X 2 ∧
    (∀ c ∈ [0, 1, 2, 3, 4, 5, 6],
      Fl.lt
        (moveValue heuristic_1 1
          (applyMoves [(0, .X), (4, .O), (0, .X), (4, .O), (0, .X), (6, .O),
            (2, .X), (5, .O), (2, .X), (5, .O), (2, .X), (6, .O)])
          Team.X 0)
        (moveValue heuristic_1 1
          (applyMoves [(0, .X), (4, .O), (0, .X), (4, .O), (0, .X), (6, .O),
            (2, .X), (5, .O), (2, .X), (5, .O), (2, .X), (6, .O)])
          Team.X c) = false) ∧
    make_move heuristic_1 1
        (applyMoves [(0, .X), (4, .O), (0, .X), (4, .O), (0, .X), (6, .O),
          (2, .X), (5, .O), (2, .X), (5, .O), (2, .X), (6, .O)])
        Team.X [0, 1, 2, 3, 4, 5, 6] ≠ 0 := by
  have hv0 : moveValue heuristic_1 1
      (applyMoves [(0, .X), (4, .O), (0, .X), (4, .O), (0, .X), (6, .O),
        (2, .X), (5, .O), (2, .X), (5, .O), (2, .X), (6, .O)]) Team.X 0 =
      Fl.MAX := moveValue_win (by decide) (by decide)
  have hv2 : moveValue heuristic_1 1
      (applyMoves [(0, .X), (4, .O), (0, .X), (4, .O), (0, .X), (6, .O),
        (2, .X), (5, .O), (2, .X), (5, .O), (2, .X), (6, .O)]) Team.X 2 =
      Fl.MAX := moveValue_win (by decide) (by decide)
  have hv1 : ∃ q, moveValue heuristic_1 1
      (applyMoves [(0, .X), (4, .O), (0, .X), (4, .O), (0, .X), (6, .O),
        (2, .X), (5, .O), (2, .X), (5, .O), (2, .X), (6, .O)]) Team.X 1 =
      Fl.num q := by
    rw [moveValue_depth1_none (by decide) (by decide)]
    exact heuristic_1_num_of_none (by decide)
  have hv3 : ∃ q, moveValue heuristic_1 1
      (applyMoves [(0, .X), (4, .O), (0, .X), (4, .O), (0, .X), (6, .O),
        (2, .X), (5, .O), (2, .X), (5, .O), (2, .X), (6, .O)]) Team.X 3 =
      Fl.num q := by
    rw [moveValue_depth1_none (by decide) (by decide)]
    exact heuristic_1_num_of_none (by decide)
  have hv4 : ∃ q, moveValue heuristic_1 1
      (applyMoves [(0, .X), (4, .O), (0, .X), (4, .O), (0, .X), (6, .O),
        (2, .X), (5, .O), (2, .X), (5, .O), (2, .X), (6, .O)]) Team.X 4 =
      Fl.num q := by
    rw [moveValue_depth1_none (by decide) (by decide)]
    exact heuristic_1_num_of_none (by decide)
  have hv5 : ∃ q, moveValue heuristic_1 1
      (applyMoves [(0, .X), (4, .O), (0, .X), (4, .O), (0, .X), (6, .O),
        (2, .X), (5, .O), (2, .X), (5, .O), (2, .X), (6, .O)]) Team.X 5 =
      Fl.num q := by
    rw [moveValue_depth1_none (by decide) (by decide)]
    exact heuristic_1_num_of_none (by decide)
  have hv6 : ∃ q, moveValue heuristic_1 1
      (applyMoves [(0, .X), (4, .O), (0, .X), (4, .O), (0, .X), (6, .O),
        (2, .X), (5, .O), (2, .X), (5, .O), (2, .X), (6, .O)]) Team.X 6 =
      Fl.num q := by
    rw [moveValue_depth1_none (by decide) (by decide)]
    exact heuristic_1_num_of_none (by decide)
  obtain ⟨q1, hq1⟩ := hv1
  obtain ⟨q3, hq3⟩ := hv3
  obtain ⟨q4, hq4⟩ := hv4
  obtain ⟨q5, hq5⟩ := hv5
  obtain ⟨q6, hq6⟩ := hv6
  have hmap : [0, 1, 2, 3, 4, 5, 6].map
      (fun c => (c, moveValue heuristic_1 1
        (applyMoves [(0, .X), (4, .O), (0, .X), (4, .O), (0, .X), (6, .O),
          (2, .X), (5, .O), (2, .X), (5, .O), (2, .X), (6, .O)]) Team.X c)) =
      [(0, Fl.MAX), (1, Fl.num q1), (2, Fl.MAX), (3, Fl.num q3),
       (4, Fl.num q4), (5, Fl.num q5), (6, Fl.num q6)] := by
    simp only [List.map_cons, List.map_nil, hv0, hq1, hv2, hq3, hq4, hq5, hq6]
  have hmm : make_move heuristic_1 1
      (applyMoves [(0, .X), (4, .O), (0, .X), (4, .O), (0, .X), (6, .O),
        (2, .X), (5, .O), (2, .X), (5, .O), (2, .X), (6, .O)])
      Team.X [0, 1, 2, 3, 4, 5, 6] = 2 := by
    unfold make_move
    rw [hmap]
    simp [maxBySnd, Fl.gt, Fl.lt]
  refine ⟨hmm, by rw [hv0, hv2], ?_, by rw [hmm]; decide⟩
  intro c hc
  fin_cases hc
  · rw [hv0]
    rfl
  · rw [hv0, hq1]
    rfl
  · rw [hv0, hv2]
    rfl
  · rw [hv0, hq3]
    rfl
  · rw [hv0, hq4]
    rfl
  · rw [hv0, hq5]
    rfl
  · rw [hv0, hq6]
    rfl

/-- Witness for C6 on the empty board with the ascending iteration order. -/
theorem C6_witness :
    make_move heuristic_1 1 emptyBoard Team.X [0, 1, 2, 3, 4, 5, 6] ∈
      possible_moves emptyBoard ∧
    ∃ v l1 l2,
      [0, 1, 2, 3, 4, 5, 6].map
          (fun c => (c, moveValue heuristic_1 1 emptyBoard Team.X c)) =
        l1 ++ (make_move heuristic_1 1 emptyBoard Team.X [0, 1, 2, 3, 4, 5, 6],
          v) :: l2 ∧
      v = moveValue heuristic_1 1 emptyBoard Team.X
        (make_move heuristic_1 1 emptyBoard Team.X [0, 1, 2, 3, 4, 5, 6]) ∧
      (∀ q ∈ l1, Fl.lt v q.2 = false) ∧
      (∀ q ∈ l2, Fl.lt q.2 v = true) :=
  C6_make_move_last_max heuristic_1 1 emptyBoard Team.X [0, 1, 2, 3, 4, 5, 6]
    (by decide) (by decide)

/-- C7: the neighbor loop of `heuristic_1` does NOT restrict itself to
on-board neighbors. With a single X at `(0, 0)` (after `put_tile(0, X)` on
the empty board), the cell has exactly three on-board neighbors —
`(1, 0)`, `(1, 1)` and `(0, 1)`, all empty — so the claim's per-cell score is
`3 · 0.333 = 0.999`. The code instead scores `4 · 0.333 = 1.332`: the
off-board displacement `(1, -1)` is evaluated through the flat-index
arithmetic `(0 + 1) * H + (0 - 1) = 5`, which is the on-board cell `(0, 5)`
of the same column, so an off-board neighbor position contributes. -/
theorem C7_offboard_neighbor_aliasing :
    heuristic_1 (put_tile emptyBoard 0 Team.X).2 Team.X = Fl.num (1332 / 1000) ∧
    i32ToUsize (satAdd (satMul ((0 : Int) + 1) (6 : Int)) ((0 : Int) + (-1))) = 5 ∧
    fget (put_tile emptyBoard 0 Team.X).2 5 = none ∧
    (1332 / 1000 : ℚ) = 4 * (333 / 1000) ∧
    (3 * (333 / 1000) : ℚ) = 999 / 1000 ∧
    (1332 / 1000 : ℚ) ≠ 999 / 1000 := by
  refine ⟨?_, by decide, by decide, by norm_num, by norm_num, by norm_num⟩
  have h1 : heuristic_1 (put_tile emptyBoard 0 Team.X).2 Team.X =
      Fl.num (0 + surrounding (put_tile emptyBoard 0 Team.X).2 0 0 Team.X) := rfl
  have h2 : surrounding (put_tile emptyBoard 0 Team.X).2 0 0 Team.X =
      ((((0 : ℚ) + 333 / 1000) + 333 / 1000) + 333 / 1000) + 333 / 1000 := rfl
  rw [h1, h2]
  norm_num

/-! ### `Game::run_error_loss` (lib.rs) -/

/-- Outcome of the error-converting game loop. -/
inductive LoopOutcome : Type where
  | finished : GameResult → LoopOutcome
  | panicked : LoopOutcome
deriving DecidableEq, Repr

/-- `Game::run_error_loss`, with the two players as pure move-choosing
functions (the `Player` trait's `make_move`) and explicit fuel bounding the
number of loop iterations (`none` = fuel ran out; a real game terminates
because the board fills up). A `FieldFullAtColumn` failure of `put_tile`
converts into an immediate win for the other team; any other `put_tile`
error — and the out-of-bounds panic inside `game_result_on_change` — is the
source's `panic!`. -/
def run_error_loss (px po : Board → Team → Nat) : Nat → Board → Option LoopOutcome
  | 0, _ => none
  | fuel + 1, b =>
      let move_x := px b Team.X
      match put_tile b move_x Team.X with
      | (.error (.FieldFullAtColumn team), _) =>
          some (.finished (GameResult.Winner team.other))
      | (.error _, _) => some .panicked
      | (.ok _, b1) =>
          match game_result_on_change b1 move_x with
          | .error _ => some .panicked
          | .ok (some result) => some (.finished result)
          | .ok none =>
              let move_o := po b1 Team.O
              match put_tile b1 move_o Team.O with
              | (.error (.FieldFullAtColumn team), _) =>
                  some (.finished (GameResult.Winner team.other))
              | (.error _, _) => some .panicked
              | (.ok _, b2) =>
                  match game_result_on_change b2 move_o with
                  | .error _ => some .panicked
                  | .ok (some result) => some (.finished result)
                  | .ok none => run_error_loss px po fuel b2

/-- One unfolding of the loop. -/
theorem run_error_loss_succ (px po : Board → Team → Nat) (fuel : Nat) (b : Board) :
    run_error_loss px po (fuel + 1) b =
      match put_tile b (px b Team.X) Team.X with
      | (.error (.FieldFullAtColumn team), _) =>
          some (.finished (GameResult.Winner team.other))
      | (.error _, _) => some .panicked
      | (.ok _, b1) =>
          match game_result_on_change b1 (px b Team.X) with
          | .error _ => some .panicked
          | .ok (some result) => some (.finished result)
          | .ok none =>
              match put_tile b1 (po b1 Team.O) Team.O with
              | (.error (.FieldFullAtColumn team), _) =>
                  some (.finished (GameResult.Winner team.other))
              | (.error _, _) => some .panicked
              | (.ok _, b2) =>
                  match game_result_on_change b2 (po b1 Team.O) with
                  | .error _ => some .panicked
                  | .ok (some result) => some (.finished result)
                  | .ok none => run_error_loss px po fuel b2 := rfl

/-- Pair-eta form of a failing `put_tile`. -/
theorem pair_eta_err {b : Board} {col : Nat} {t : Team} {e : Error}
    (h : (put_tile b col t).1 = .error e) : put_tile b col t = (.error e, b) := by
  have hframe := put_tile_err_frame h
  cases hput : put_tile b col t with
  | mk r tb =>
      rw [hput] at h hframe
      have hr : r = .error e := h
      have htb : tb = b := hframe
      rw [hr, htb]

theorem rel_x_full {px po : Board → Team → Nat} {b : Board} {t : Team} (fuel : Nat)
    (h : put_tile b (px b Team.X) Team.X = (.error (.FieldFullAtColumn t), b)) :
    run_error_loss px po (fuel + 1) b =
      some (.finished (GameResult.Winner t.other)) := by
  rw [run_error_loss_succ, h]

theorem rel_x_iob {px po : Board → Team → Nat} {b : Board} (fuel : Nat)
    (h : put_tile b (px b Team.X) Team.X = (.error .IndexOutOfBounds, b)) :
    run_error_loss px po (fuel + 1) b = some .panicked := by
  rw [run_error_loss_succ, h]

theorem rel_x_ok {px po : Board → Team → Nat} {b b1 : Board} (fuel : Nat)
    (hok : put_tile b (px b Team.X) Team.X = (.ok (), b1)) :
    run_error_loss px po (fuel + 1) b =
      (match game_result_on_change b1 (px b Team.X) with
       | .error _ => some .panicked
       | .ok (some result) => some (.finished result)
       | .ok none =>
           match put_tile b1 (po b1 Team.O) Team.O with
           | (.error (.FieldFullAtColumn team), _) =>
               some (.finished (GameResult.Winner team.other))
           | (.error _, _) => some .panicked
           | (.ok _, b2) =>
               match game_result_on_change b2 (po b1 Team.O) with
               | .error _ => some .panicked
               | .ok (some result) => some (.finished result)
               | .ok none => run_error_loss px po fuel b2) := by
  rw [run_error_loss_succ, hok]

theorem rel_x_ok_none {px po : Board → Team → Nat} {b b1 : Board} (fuel : Nat)
    (hok : put_tile b (px b Team.X) Team.X = (.ok (), b1))
    (hnone : game_result_on_change b1 (px b Team.X) = .ok none) :
    run_error_loss px po (fuel + 1) b =
      (match put_tile b1 (po b1 Team.O) Team.O with
       | (.error (.FieldFullAtColumn team), _) =>
           some (.finished (GameResult.Winner team.other))
       | (.error _, _) => some .panicked
       | (.ok _, b2) =>
           match game_result_on_change b2 (po b1 Team.O) with
           | .error _ => some .panicked
           | .ok (some result) => some (.finished result)
           | .ok none => run_error_loss px po fuel b2) := by
  rw [rel_x_ok fuel hok, hnone]

/-- C9: in the auto-loss game loop, a `FieldFullAtColumn` failure of either
player's move ends the loop immediately with a win for the other team (and
the error's payload is the acting team); any other `put_tile` error kind is
fatal — the loop panics instead of producing a game result. -/
theorem C9_error_loss_conversion (px po : Board → Team → Nat) (b : Board)
    (fuel : Nat) :
    (∀ t, (put_tile b (px b Team.X) Team.X).1 = .error (.FieldFullAtColumn t) →
      t = Team.X ∧ run_error_loss px po (fuel + 1) b =
        some (.finished (GameResult.Winner t.other))) ∧
    ((put_tile b (px b Team.X) Team.X).1 = .error .IndexOutOfBounds →
      run_error_loss px po (fuel + 1) b = some .panicked) ∧
    (∀ b1 t, put_tile b (px b Team.X) Team.X = (.ok (), b1) →
      game_result_on_change b1 (px b Team.X) = .ok none →
      (put_tile b1 (po b1 Team.O) Team.O).1 = .error (.FieldFullAtColumn t) →
      t = Team.O ∧ run_error_loss px po (fuel + 1) b =
        some (.finished (GameResult.Winner t.other))) ∧
    (∀ b1, put_tile b (px b Team.X) Team.X = (.ok (), b1) →
      game_result_on_change b1 (px b Team.X) = .ok none →
      (put_tile b1 (po b1 Team.O) Team.O).1 = .error .IndexOutOfBounds →
      run_error_loss px po (fuel + 1) b = some .panicked) := by
  refine ⟨?_, ?_, ?_, ?_⟩
  · intro t h
    exact ⟨(put_tile_err_full.mp h).1, rel_x_full fuel (pair_eta_err h)⟩
  · intro h
    exact rel_x_iob fuel (pair_eta_err h)
  · intro b1 t hok hnone h
    refine ⟨(put_tile_err_full.mp h).1, ?_⟩
    rw [rel_x_ok_none fuel hok hnone, pair_eta_err h]
  · intro b1 hok hnone h
    rw [rel_x_ok_none fuel hok hnone, pair_eta_err h]

/-- Witness for C9: a constant player stuffing the already-full column 0
loses immediately. -/
theorem C9_witness :
    Team.X = Team.X ∧
    run_error_loss (fun _ _ => 0) (fun _ _ => 0) 1
        (applyMoves [(0, .X), (0, .O), (0, .X), (0, .O), (0, .X), (0, .O)]) =
      some (.finished (GameResult.Winner Team.X.other)) :=
  (C9_error_loss_conversion (fun _ _ => 0) (fun _ _ => 0)
    (applyMoves [(0, .X), (0, .O), (0, .X), (0, .O), (0, .X), (0, .O)]) 0).1
    Team.X (by decide)

end ConnectFour
